import Mathlib

/-!
Verification development for `mne/annotations.py`: the `Annotations` value
object (construction, validation, sorting, serialization) and the
`_combine_annotations` helper.

Numeric values are modelled as rationals (`ℚ`): every numeric operation the
code performs on them (addition, division, comparison) is exact at the
concrete inputs of the claims, and no NaN/overflow behaviour is involved.
Machine index arithmetic is on `Nat`.  Fallible code returns `Except`.
-/

namespace MneAnn

/-! ## Part 1: numpy `argsort` (default kind, i.e. quicksort)

`Annotations.__init__` computes `order = onset.argsort(axis=0)`.  numpy's
default `argsort` (contemporary with this code, numpy < 1.17) is
`aquicksort_` from `npysort/quicksort.c.src`: a median-of-3 Hoare-partition
quicksort on the index array `tosort`, switching to insertion sort for
segments of at most `SMALL_QUICKSORT + 1 = 16` elements.  The explicit
stack of the C code is rendered as recursion (the pushed segment is sorted
after the one the loop continues with; the segments are disjoint, so the
result is the same array).  The C comparison `@TYPE@_LT` for doubles is
`a < b` apart from NaN handling, which never triggers on our rationals.

Loops whose index increases are given explicit fuel (always called with
fuel at least the array length, which is proven sufficient); loops whose
index decreases recurse structurally on the index. -/

/-- Value `v[i]` for an index held in the `tosort` array (out-of-range reads
default to `0`; they never occur in the executions reached from
`npArgsort`). -/
def idxVal (v : List ℚ) (i : Nat) : ℚ := v.getD i 0

/-- The sort key at position `k` of the index array `t`: `v[t[k]]`. -/
def keyAt (v : List ℚ) (t : List Nat) (k : Nat) : ℚ := idxVal v (t.getD k 0)

/-- Swap `INTP_SWAP(*pi, *pj)` of two entries of the index array. -/
def lswap (t : List Nat) (i j : Nat) : List Nat :=
  (t.set i (t.getD j 0)).set j (t.getD i 0)

/-- Scan `do ++pi; while (v[*pi] < vp)`: first position strictly above `i` whose
key is not `< vp`.  Fuel-bounded; the pivot parked at `pr - 1` guarantees
the scan stops within the segment whenever the fuel is at least the array
length. -/
def scanUp (v : List ℚ) (t : List Nat) (vp : ℚ) : Nat → Nat → Nat
  | 0, i => i + 1
  | fuel + 1, i => if keyAt v t (i + 1) < vp then scanUp v t vp fuel (i + 1) else i + 1

/-- Scan `do --pj; while (vp < v[*pj])`: first position strictly below `j` whose
key is not `> vp` (the key at `pl` is `≤ vp`, so the scan never underruns
the segment in reached executions). -/
def scanDown (v : List ℚ) (t : List Nat) (vp : ℚ) : Nat → Nat
  | 0 => 0
  | j + 1 => if vp < keyAt v t j then scanDown v t vp j else j

/-- The Hoare partition loop `for (;;) { do ++pi ...; do --pj ...; if (pi >= pj)
break; SWAP(*pi, *pj); }`; returns the updated index array and the final
`pi`. -/
def partLoop (v : List ℚ) (vp : ℚ) : Nat → List Nat → Nat → Nat → List Nat × Nat
  | 0, t, i, _ => (t, i + 1)
  | fuel + 1, t, i, j =>
      let i' := scanUp v t vp t.length i
      let j' := scanDown v t vp j
      if i' < j' then partLoop v vp fuel (lswap t i' j') i' j'
      else (t, i')

/-- One quicksort partition step on segment `[pl, pr]`: median-of-3 pivot
selection, parking the pivot at `pr - 1`, the partition loop, and the final
`SWAP(*pi, *pk)` with `pk = pr - 1`.  Returns the array and `pi`. -/
def partitionStep (v : List ℚ) (t : List Nat) (pl pr : Nat) : List Nat × Nat :=
  let pm := pl + (pr - pl) / 2
  let t1 := if keyAt v t pm < keyAt v t pl then lswap t pm pl else t
  let t2 := if keyAt v t1 pr < keyAt v t1 pm then lswap t1 pr pm else t1
  let t3 := if keyAt v t2 pm < keyAt v t2 pl then lswap t2 pm pl else t2
  let vp := keyAt v t3 pm
  let t4 := lswap t3 pm (pr - 1)
  let r := partLoop v vp t4.length t4 pl (pr - 1)
  (lswap r.1 r.2 (pr - 1), r.2)

/-- The inner shift of the insertion sort: `pj = pi; pk = pi - 1;
while (pj > pl && LT(vp, v[*pk])) *pj-- = *pk--; *pj = vi;`. -/
def shiftIns (v : List ℚ) (vi : Nat) (pl : Nat) : List Nat → Nat → List Nat
  | t, 0 => t.set 0 vi
  | t, pj + 1 =>
      if pl < pj + 1 ∧ idxVal v vi < keyAt v t pj then
        shiftIns v vi pl (t.set (pj + 1) (t.getD pj 0)) pj
      else t.set (pj + 1) vi

/-- The insertion sort `for (pi = pl + 1; pi <= pr; ++pi)` over segment
`[pl, pr]` (fuel-bounded; called with fuel `t.length`, enough since the
segment lies inside the array). -/
def insLoop (v : List ℚ) (pl pr : Nat) : Nat → List Nat → Nat → List Nat
  | 0, t, _ => t
  | fuel + 1, t, i =>
      if i ≤ pr then insLoop v pl pr fuel (shiftIns v (t.getD i 0) pl t i) (i + 1)
      else t

/-- Body of `aquicksort_` on segment `[pl, pr]` of the index array: partition while
the segment has more than `SMALL_QUICKSORT = 15` index gaps, insertion sort
below that.  The C pushes the larger partition on the stack and iterates on
the smaller; here the smaller is sorted first and the pushed one after,
which touches the same disjoint position ranges. -/
def aqsortSeg (v : List ℚ) : Nat → List Nat → Nat → Nat → List Nat
  | 0, t, _, _ => t
  | fuel + 1, t, pl, pr =>
      if 15 < pr - pl then
        let r := partitionStep v t pl pr
        if r.2 - pl < pr - r.2 then
          aqsortSeg v fuel (aqsortSeg v fuel r.1 pl (r.2 - 1)) (r.2 + 1) pr
        else
          aqsortSeg v fuel (aqsortSeg v fuel r.1 (r.2 + 1) pr) pl (r.2 - 1)
      else insLoop v pl pr t.length t (pl + 1)

/-- Model of `onset.argsort(axis=0)`: sort the identity index array
`[0, …, n-1]` by the values of `v`. -/
def npArgsort (v : List ℚ) : List Nat :=
  aqsortSeg v v.length (List.range v.length) 0 (v.length - 1)

/-! ## Part 2: the `Annotations` object and `_combine_annotations`

The caller-supplied `onset` and `duration` arguments become numpy arrays via
`np.array(...)`; the dimensionality the code checks is part of the input
type.  The `description` argument is only measured with `len(...)` and
indexed along its first axis, so a two-dimensional value is legal input. -/

/-- A numeric input array together with its dimensionality (`np.array(x).ndim`).
Multi-dimensional arrays are taken rectangular, as in the claims. -/
inductive NumArray
  | d0 : ℚ → NumArray
  | d1 : List ℚ → NumArray
  | d2 : List (List ℚ) → NumArray
deriving DecidableEq, Repr

/-- Dimensionality `np.array(x).ndim` of a numeric input. -/
def NumArray.ndim : NumArray → Nat
  | .d0 _ => 0
  | .d1 _ => 1
  | .d2 _ => 2

/-- A text-label array (one- or two-dimensional); the code never checks its
dimensionality. -/
inductive StrArray
  | d1 : List String → StrArray
  | d2 : List (List String) → StrArray
deriving DecidableEq, Repr

/-- Result of `len(description)`: the outer length. -/
def StrArray.len : StrArray → Nat
  | .d1 xs => xs.length
  | .d2 xss => xss.length

/-- An `orig_time` argument that is not `None`: either a numeric scalar
(`np.isscalar` true) or a (seconds, microseconds) pair (a two-element
sequence, `np.isscalar` false).  The `datetime` variant of the source
(`time.mktime(orig_time.timetuple())`, a local-time conversion) is outside
this embedding; no claim mentions it. -/
inductive OrigTimeIn
  | scalar : ℚ → OrigTimeIn
  | pair : ℚ → ℚ → OrigTimeIn
deriving DecidableEq, Repr

/-- Normalization of `orig_time` performed at the top of
`Annotations.__init__`: a pair becomes `orig_time[0] + orig_time[1] / 1000000.`,
a scalar becomes `float(orig_time)`, `None` stays `None`. -/
def normalizeOrigTime : Option OrigTimeIn → Option ℚ
  | none => none
  | some (.pair s us) => some (s + us / 1000000)
  | some (.scalar q) => some q

/-- The constructed value object: three parallel arrays (already permuted by
the argsort order) and the normalized `orig_time`. -/
structure Annotations where
  onset : List ℚ
  duration : List ℚ
  description : StrArray
  origTime : Option ℚ
deriving DecidableEq, Repr

/-- Python exceptions the modelled code can raise. -/
inductive PyErr
  | valueError : String → PyErr
  | typeError : PyErr
deriving DecidableEq, Repr

instance {ε α : Type} [DecidableEq ε] [DecidableEq α] : DecidableEq (Except ε α)
  | .error e1, .error e2 =>
      if h : e1 = e2 then .isTrue (by rw [h]) else .isFalse (by simp [h])
  | .error _, .ok _ => .isFalse (by simp)
  | .ok _, .error _ => .isFalse (by simp)
  | .ok a1, .ok a2 =>
      if h : a1 = a2 then .isTrue (by rw [h]) else .isFalse (by simp [h])

/-- Fancy indexing `xs[order]` of a one-dimensional numeric array. -/
def applyPermQ (xs : List ℚ) (order : List Nat) : List ℚ :=
  order.map (fun k => xs.getD k 0)

/-- Fancy indexing `np.array(description)[order]` along the first axis. -/
def applyPermS (d : StrArray) (order : List Nat) : StrArray :=
  match d with
  | .d1 xs => .d1 (order.map (fun k => xs.getD k ""))
  | .d2 xss => .d2 (order.map (fun k => xss.getD k []))

/-- Body of `Annotations.__init__`: normalize `orig_time`, check that `onset`
and `duration` are one-dimensional and that the three lengths agree, then
sort the three arrays in lockstep by `order = onset.argsort(axis=0)`.
Checks are performed in source order (onset ndim, duration ndim, lengths). -/
def annotationsInit (onset duration : NumArray) (description : StrArray)
    (origTime : Option OrigTimeIn) : Except PyErr Annotations :=
  let ot := normalizeOrigTime origTime
  match onset with
  | .d1 o =>
    match duration with
    | .d1 d =>
      if o.length = d.length ∧ d.length = description.len then
        let order := npArgsort o
        .ok ⟨applyPermQ o order, applyPermQ d order, applyPermS description order, ot⟩
      else .error (.valueError "Onset, duration and description must be equal in sizes.")
    | _ => .error (.valueError "Duration must be a one dimensional array.")
  | _ => .error (.valueError "Onset must be a one dimensional array.")

/-- A JSON document, the structured value behind `json.dumps`.  The textual
layer (`dumps` followed by `loads` of the external reader) is modelled at
this structured level; `json.dumps`/`json.loads` round-trip such values. -/
inductive Json
  | null : Json
  | num : ℚ → Json
  | str : String → Json
  | arr : List Json → Json
  | obj : List (String × Json) → Json
deriving Repr

/-- Result of `self.description.tolist()` inside the serialized document. -/
def StrArray.tolistJson : StrArray → Json
  | .d1 xs => .arr (xs.map .str)
  | .d2 xss => .arr (xss.map (fun r => Json.arr (r.map .str)))

/-- Body of `Annotations._serialize`: the four normalized fields as a JSON
object, `orig_time` a number or null. -/
def serializeAnn (a : Annotations) : Json :=
  .obj [("onset", .arr (a.onset.map .num)),
        ("duration", .arr (a.duration.map .num)),
        ("description", a.description.tolistJson),
        ("orig_time", match a.origTime with | none => Json.null | some q => Json.num q)]

/-- Key lookup of the external reader on the parsed document. -/
def jsonLookup (j : Json) (k : String) : Option Json :=
  match j with
  | .obj kvs => (kvs.find? (fun kv => kv.1 == k)).map (fun kv => kv.2)
  | _ => none

/-- Reading a JSON value back as a plain list of numbers. -/
def jsonDecodeNums : Json → Option (List ℚ)
  | .arr js => js.mapM (fun j => match j with | .num q => some q | _ => none)
  | _ => none

/-- Reading a JSON value back as a plain list of strings. -/
def jsonDecodeStrs : Json → Option (List String)
  | .arr js => js.mapM (fun j => match j with | .str s => some s | _ => none)
  | _ => none

/-- Concatenation `np.r_[x, y]` of two description arrays: 1-d arrays chain;
2-d arrays require matching row width; mixed dimensionalities fail. -/
def strConcat : StrArray → StrArray → Except PyErr StrArray
  | .d1 xs, .d1 ys => .ok (.d1 (xs ++ ys))
  | .d2 xss, .d2 yss =>
      if xss = [] ∨ yss = [] ∨ (xss.headD []).length = (yss.headD []).length
      then .ok (.d2 (xss ++ yss))
      else .error (.valueError "input array dimensions for the concatenation axis must match")
  | _, _ => .error (.valueError "all the input arrays must have same number of dimensions")

/-- Result of `_combine_annotations`: `None`, a proper constructed object, or
the degenerate object produced in the absolute-timestamp branch when `a` has
no entries and `b` exactly one — its onset is then the one-element *object*
array holding `b` itself (carried here as the first component). -/
inductive CombineRes
  | noneRes : CombineRes
  | someRes : Annotations → CombineRes
  | objRes : Annotations → List ℚ → StrArray → Option ℚ → CombineRes
deriving DecidableEq, Repr

/-- Body of `_combine_annotations(annotations, last_samps, sfreq)`.

Control flow of the source, in order:
* `if not all(annotations): return None` — an `Annotations` instance is
  always truthy (it defines neither `__bool__` nor `__len__`) and `None` is
  falsy, so this returns `None` whenever either argument is absent.  The
  two `elif annotations[i] is None` branches that follow in the source are
  consequently unreachable.
* When `annotations[1].orig_time is None`, b's onsets are shifted by
  `sum(last_samps[:-1]) / sfreq` and the pieces are concatenated with
  `np.r_` and re-constructed with a's `orig_time`.
* Otherwise the source binds `onset = annotations[1]` — the whole object,
  not its `.onset` — so `np.r_[annotations[0].onset, onset]` appends `b`
  itself as one object-dtype element: construction then fails the length
  check unless `len(b) = 1`, and otherwise `argsort` raises `TypeError`
  comparing a float with an `Annotations` object as soon as the array has a
  float to compare with (`len(a) ≥ 1`); with `len(a) = 0` the degenerate
  one-element object array is accepted unsorted. -/
def combineAnnotations (a b : Option Annotations) (lastSamps : List Nat) (sfreq : ℚ) :
    Except PyErr CombineRes :=
  if a.isNone ∨ b.isNone then .ok .noneRes
  else
    match a, b with
    | some a, some b =>
      if b.origTime = none then
        let shift : ℚ := (lastSamps.dropLast.sum : ℚ) / sfreq
        let onset := a.onset ++ b.onset.map (fun x => x + shift)
        let duration := a.duration ++ b.duration
        match strConcat a.description b.description with
        | .error e => .error e
        | .ok descr =>
          (annotationsInit (.d1 onset) (.d1 duration) descr
            (a.origTime.map OrigTimeIn.scalar)).map .someRes
      else
        let duration := a.duration ++ b.duration
        match strConcat a.description b.description with
        | .error e => .error e
        | .ok descr =>
          if a.onset.length + 1 = duration.length ∧ duration.length = descr.len then
            if a.onset.length = 0 then .ok (.objRes b duration descr a.origTime)
            else .error .typeError
          else .error (.valueError "Onset, duration and description must be equal in sizes.")
    | _, _ => .ok .noneRes

/-! ## Part 3: correctness of the argsort model

The development below proves that `npArgsort` returns an index array of the
input's length whose entries are drawn from `0, …, n-1` and that reading the
values through it yields a non-decreasing sequence; and that for inputs of
at most 16 elements (numpy's insertion-sort regime) the order is moreover
stable (lexicographic in (value, original position)). -/

theorem getD_set_self (t : List Nat) (i x : Nat) (h : i < t.length) :
    (t.set i x).getD i 0 = x := by
  simp [List.getD_eq_getElem?_getD, List.getElem?_set_self', List.getElem?_eq_getElem, h]

theorem getD_set_other (t : List Nat) (i j x : Nat) (h : i ≠ j) :
    (t.set i x).getD j 0 = t.getD j 0 := by
  simp [List.getD_eq_getElem?_getD, List.getElem?_set_ne h]

theorem getD_range (n k : Nat) (h : k < n) : (List.range n).getD k 0 = k := by
  simp [List.getD_eq_getElem?_getD, List.getElem?_range, h]

theorem getD_map_rat (l : List Nat) (f : Nat → ℚ) (k : Nat) (h : k < l.length) :
    (l.map f).getD k 0 = f (l.getD k 0) := by
  simp [List.getD_eq_getElem?_getD, List.getElem?_map, List.getElem?_eq_getElem, h]

theorem lswap_length (t : List Nat) (i j : Nat) : (lswap t i j).length = t.length := by
  simp [lswap]

theorem lswap_getD_fst (t : List Nat) (i j : Nat) (hi : i < t.length) (hj : j < t.length) :
    (lswap t i j).getD i 0 = t.getD j 0 := by
  unfold lswap
  rcases eq_or_ne i j with rfl | hij
  · rw [getD_set_self _ _ _ (by simpa using hi)]
  · rw [getD_set_other _ _ _ _ (Ne.symm hij), getD_set_self _ _ _ hi]

theorem lswap_getD_snd (t : List Nat) (i j : Nat) (hj : j < t.length) :
    (lswap t i j).getD j 0 = t.getD i 0 := by
  unfold lswap
  rw [getD_set_self _ _ _ (by simpa using hj)]

theorem lswap_getD_other (t : List Nat) (i j k : Nat) (h1 : k ≠ i) (h2 : k ≠ j) :
    (lswap t i j).getD k 0 = t.getD k 0 := by
  unfold lswap
  rw [getD_set_other _ _ _ _ (Ne.symm h2), getD_set_other _ _ _ _ (Ne.symm h1)]

/-- Positions of `t'` inside `[lo, hi]` hold values taken from positions of
`t` inside `[lo, hi]` (pointwise segment-membership; preserved by every
operation the sort performs, and enough to transport `∀`-facts about the
segment's values). -/
def SegSub (t' t : List Nat) (lo hi : Nat) : Prop :=
  ∀ k, lo ≤ k → k ≤ hi → ∃ m, lo ≤ m ∧ m ≤ hi ∧ t'.getD k 0 = t.getD m 0

theorem segSub_refl (t : List Nat) (lo hi : Nat) : SegSub t t lo hi :=
  fun k hk1 hk2 => ⟨k, hk1, hk2, rfl⟩

theorem segSub_trans {t3 t2 t1 : List Nat} {lo hi : Nat}
    (h32 : SegSub t3 t2 lo hi) (h21 : SegSub t2 t1 lo hi) : SegSub t3 t1 lo hi := by
  intro k hk1 hk2
  obtain ⟨m, hm1, hm2, hm⟩ := h32 k hk1 hk2
  obtain ⟨m', hm1', hm2', hm'⟩ := h21 m hm1 hm2
  exact ⟨m', hm1', hm2', hm.trans hm'⟩

theorem segSub_transfer {t' t : List Nat} {lo hi : Nat} (P : Nat → Prop)
    (hsub : SegSub t' t lo hi) (hall : ∀ k, lo ≤ k → k ≤ hi → P (t.getD k 0)) :
    ∀ k, lo ≤ k → k ≤ hi → P (t'.getD k 0) := by
  intro k hk1 hk2
  obtain ⟨m, hm1, hm2, hm⟩ := hsub k hk1 hk2
  rw [hm]; exact hall m hm1 hm2

theorem segSub_lswap (t : List Nat) {lo hi i j : Nat}
    (hi1 : lo ≤ i) (hi2 : i ≤ hi) (hj1 : lo ≤ j) (hj2 : j ≤ hi)
    (hli : i < t.length) (hlj : j < t.length) : SegSub (lswap t i j) t lo hi := by
  intro k hk1 hk2
  rcases eq_or_ne k i with rfl | hki
  · exact ⟨j, hj1, hj2, lswap_getD_fst t k j hli hlj⟩
  rcases eq_or_ne k j with rfl | hkj
  · exact ⟨i, hi1, hi2, lswap_getD_snd t i k hlj⟩
  · exact ⟨k, hk1, hk2, lswap_getD_other t i j k hki hkj⟩

/-- Extend a `SegSub` on a subrange to a larger range, given that positions
of the larger range outside the subrange are unchanged. -/
theorem segSub_extend {t' t : List Nat} {lo hi lo' hi' : Nat}
    (hlo : lo ≤ lo') (hhi : hi' ≤ hi)
    (hsub : SegSub t' t lo' hi')
    (hout : ∀ k, lo ≤ k → k ≤ hi → k < lo' ∨ hi' < k → t'.getD k 0 = t.getD k 0) :
    SegSub t' t lo hi := by
  intro k hk1 hk2
  by_cases hin : lo' ≤ k ∧ k ≤ hi'
  · obtain ⟨m, hm1, hm2, hm⟩ := hsub k hin.1 hin.2
    exact ⟨m, hlo.trans hm1, hm2.trans hhi, hm⟩
  · refine ⟨k, hk1, hk2, hout k hk1 hk2 ?_⟩
    omega

/-- Keys through `t` are non-decreasing along adjacent positions of
`[lo, hi]`. -/
def SegSorted (v : List ℚ) (t : List Nat) (lo hi : Nat) : Prop :=
  ∀ k, lo ≤ k → k < hi → keyAt v t k ≤ keyAt v t (k + 1)

theorem segSorted_mono {v : List ℚ} {t : List Nat} {lo hi hi' : Nat}
    (h : SegSorted v t lo hi) (hh : hi' ≤ hi) : SegSorted v t lo hi' :=
  fun k hk1 hk2 => h k hk1 (lt_of_lt_of_le hk2 hh)

theorem segSorted_le {v : List ℚ} {t : List Nat} {lo hi : Nat}
    (h : SegSorted v t lo hi) {p q : Nat} (hp : lo ≤ p) (hpq : p ≤ q) (hq : q ≤ hi) :
    keyAt v t p ≤ keyAt v t q := by
  induction q with
  | zero => cases Nat.le_zero.mp hpq; exact le_refl _
  | succ q ih =>
    rcases Nat.lt_or_ge p (q + 1) with hlt | hge
    · exact (ih (by omega) (by omega)).trans (h q (by omega) (by omega))
    · have : p = q + 1 := by omega
      subst this; exact le_refl _

/-- Glue two sorted sub-segments around a middle position bounding both. -/
theorem segSorted_glue {v : List ℚ} {t : List Nat} {lo hi mid : Nat}
    (hleft : SegSorted v t lo (mid - 1))
    (hright : SegSorted v t (mid + 1) hi)
    (hlb : ∀ k, lo ≤ k → k + 1 ≤ mid → keyAt v t k ≤ keyAt v t mid)
    (hrb : ∀ k, mid + 1 ≤ k → k ≤ hi → keyAt v t mid ≤ keyAt v t k) :
    SegSorted v t lo hi := by
  intro k hk1 hk2
  rcases Nat.lt_or_ge (k + 1) mid with h1 | h1
  · exact hleft k hk1 (by omega)
  rcases Nat.eq_or_lt_of_le h1 with h2 | h2
  · rw [← h2]
    exact hlb k hk1 (by omega)
  rcases Nat.eq_or_lt_of_le (show mid ≤ k by omega) with h3 | h3
  · subst h3
    exact hrb (mid + 1) (by omega) (by omega)
  · exact hright k (by omega) (by omega)

/-- Specification of the upward scan: it lands on the first position above
`i` whose key is not below the pivot, provided such a position `j` exists
within the fuel budget. -/
theorem scanUp_spec (v : List ℚ) (t : List Nat) (vp : ℚ) :
    ∀ fuel i j, i < j → ¬ keyAt v t j < vp → j ≤ i + fuel →
      i + 1 ≤ scanUp v t vp fuel i ∧ scanUp v t vp fuel i ≤ j ∧
      ¬ keyAt v t (scanUp v t vp fuel i) < vp ∧
      ∀ k, i < k → k < scanUp v t vp fuel i → keyAt v t k < vp := by
  intro fuel
  induction fuel with
  | zero => intro i j h1 _ h3; omega
  | succ fuel ih =>
    intro i j h1 h2 h3
    by_cases hc : keyAt v t (i + 1) < vp
    · have hij : i + 1 < j := by
        rcases Nat.eq_or_lt_of_le (Nat.succ_le_of_lt h1) with h | h
        · exact absurd (h ▸ hc) h2
        · exact h
      have := ih (i + 1) j hij h2 (by omega)
      rw [scanUp, if_pos hc]
      refine ⟨by omega, this.2.1, this.2.2.1, ?_⟩
      intro k hk1 hk2
      rcases Nat.eq_or_lt_of_le (Nat.succ_le_of_lt hk1) with h | h
      · exact h ▸ hc
      · exact this.2.2.2 k h hk2
    · rw [scanUp, if_neg hc]
      exact ⟨le_refl _, h1, hc, fun k hk1 hk2 => by omega⟩

/-- Specification of the downward scan: it lands on the first position below
`j` whose key is not above the pivot; a stopper `s` below `j` guarantees it
does not underrun. -/
theorem scanDown_spec (v : List ℚ) (t : List Nat) (vp : ℚ) :
    ∀ j s, s < j → ¬ vp < keyAt v t s →
      s ≤ scanDown v t vp j ∧ scanDown v t vp j < j ∧
      ¬ vp < keyAt v t (scanDown v t vp j) ∧
      ∀ k, scanDown v t vp j < k → k < j → vp < keyAt v t k := by
  intro j
  induction j with
  | zero => intro s h1 _; omega
  | succ j ih =>
    intro s h1 h2
    by_cases hc : vp < keyAt v t j
    · have hsj : s < j := by
        rcases Nat.eq_or_lt_of_le (Nat.le_of_lt_succ h1) with h | h
        · exact absurd (h ▸ hc) h2
        · exact h
      have := ih s hsj h2
      rw [scanDown, if_pos hc]
      refine ⟨this.1, by omega, this.2.2.1, ?_⟩
      intro k hk1 hk2
      rcases Nat.eq_or_lt_of_le (Nat.le_of_lt_succ hk2) with h | h
      · exact h ▸ hc
      · exact this.2.2.2 k hk1 h
    · rw [scanDown, if_neg hc]
      exact ⟨Nat.le_of_lt_succ h1, Nat.lt_succ_self _, hc, fun k hk1 hk2 => by omega⟩

/-- Invariant lemma for the Hoare partition loop on ambient segment
`[pl, pr]` (pivot value `vp` parked at `pr - 1`): positions up to `pi` hold
keys `≤ vp`, positions from `pj` hold keys `≥ vp`, and the loop ends with a
crossing point `PI` splitting the segment into keys `≤ vp` strictly below
`PI` and keys `≥ vp` from `PI` on, the sentinel key at `pr - 1` untouched. -/
theorem partLoop_spec (v : List ℚ) (vp : ℚ) (pl pr : Nat) :
    ∀ fuel t pi pj T PI, partLoop v vp fuel t pi pj = (T, PI) →
      pj ≤ fuel →
      pr < t.length →
      (∀ k, pl ≤ k → k ≤ pi → keyAt v t k ≤ vp) →
      (∀ k, pj ≤ k → k ≤ pr → vp ≤ keyAt v t k) →
      keyAt v t (pr - 1) = vp →
      pj ≤ pr - 1 →
      pl ≤ pi →
      pi < pr - 1 →
      pl < pj →
      T.length = t.length ∧
      (∀ k, k ≤ pl ∨ pr - 1 ≤ k → T.getD k 0 = t.getD k 0) ∧
      SegSub T t pl pr ∧
      pi + 1 ≤ PI ∧
      PI ≤ pr - 1 ∧
      (∀ k, pl ≤ k → k + 1 ≤ PI → keyAt v T k ≤ vp) ∧
      (∀ k, PI ≤ k → k ≤ pr → vp ≤ keyAt v T k) ∧
      keyAt v T (pr - 1) = vp := by
  intro fuel
  induction fuel with
  | zero =>
    intro t pi pj T PI heq hfuel hlen hle hge hsent hpj1 hpi1 hpi2 hpj2
    omega
  | succ fuel ih =>
    intro t pi pj T PI heq hfuel hlen hle hge hsent hpj1 hpi1 hpi2 hpj2
    obtain ⟨hu1, hu2, hu3, hu4⟩ :=
      scanUp_spec v t vp t.length pi (pr - 1) hpi2
        (by rw [hsent]; exact lt_irrefl vp) (by omega)
    obtain ⟨hd1, hd2, hd3, hd4⟩ :=
      scanDown_spec v t vp pj pl hpj2 (not_lt.mpr (hle pl (le_refl pl) hpi1))
    set pi' := scanUp v t vp t.length pi with hpi'
    set pj' := scanDown v t vp pj with hpj'
    rw [partLoop] at heq
    simp only [← hpi', ← hpj'] at heq
    by_cases hij : pi' < pj'
    · rw [if_pos hij] at heq
      have hbi : pi' < t.length := by omega
      have hbj : pj' < t.length := by omega
      have hlswap : ∀ k, k ≠ pi' → k ≠ pj' → (lswap t pi' pj').getD k 0 = t.getD k 0 :=
        fun k h1 h2 => lswap_getD_other t pi' pj' k h1 h2
      have hkey : ∀ k, k ≠ pi' → k ≠ pj' → keyAt v (lswap t pi' pj') k = keyAt v t k := by
        intro k h1 h2; unfold keyAt; rw [hlswap k h1 h2]
      have hle' : ∀ k, pl ≤ k → k ≤ pi' → keyAt v (lswap t pi' pj') k ≤ vp := by
        intro k hk1 hk2
        rcases Nat.eq_or_lt_of_le hk2 with h | h
        · rw [h]
          unfold keyAt
          rw [lswap_getD_fst t pi' pj' hbi hbj]
          exact le_of_not_lt hd3
        · rw [hkey k (by omega) (by omega)]
          rcases le_or_lt k pi with h2 | h2
          · exact hle k hk1 h2
          · exact le_of_lt (hu4 k h2 h)
      have hge' : ∀ k, pj' ≤ k → k ≤ pr → vp ≤ keyAt v (lswap t pi' pj') k := by
        intro k hk1 hk2
        rcases Nat.eq_or_lt_of_le hk1 with h | h
        · rw [← h]
          unfold keyAt
          rw [lswap_getD_snd t pi' pj' hbj]
          exact le_of_not_lt hu3
        · rw [hkey k (by omega) (by omega)]
          rcases le_or_lt pj k with h2 | h2
          · exact hge k h2 hk2
          · exact le_of_lt (hd4 k h h2)
      have hsent' : keyAt v (lswap t pi' pj') (pr - 1) = vp := by
        rw [hkey (pr - 1) (by omega) (by omega)]; exact hsent
      obtain ⟨g1, g2, g3, g4, g5, g6, g7, g8⟩ :=
        ih (lswap t pi' pj') pi' pj' T PI heq (by omega)
          (by rw [lswap_length]; exact hlen) hle' hge' hsent' (by omega) (by omega)
          (by omega) (by omega)
      refine ⟨by rw [g1, lswap_length], ?_, ?_, by omega, g5, g6, g7, g8⟩
      · intro k hk
        rw [g2 k hk, hlswap k (by omega) (by omega)]
      · exact segSub_trans g3
          (segSub_lswap t (by omega) (by omega) (by omega) (by omega) hbi hbj)
    · rw [if_neg hij] at heq
      obtain ⟨rfl, rfl⟩ : t = T ∧ pi' = PI := by
        constructor <;> [exact congrArg Prod.fst heq; exact congrArg Prod.snd heq]
      refine ⟨rfl, fun k _ => rfl, segSub_refl t pl pr, hu1, by omega, ?_, ?_, hsent⟩
      · intro k hk1 hk2
        rcases le_or_lt k pi with h2 | h2
        · exact hle k hk1 h2
        · exact le_of_lt (hu4 k h2 (by omega))
      · intro k hk1 hk2
        rcases Nat.eq_or_lt_of_le hk1 with h | h
        · rw [← h]; exact le_of_not_lt hu3
        rcases le_or_lt pj k with h2 | h2
        · exact hge k h2 hk2
        · exact le_of_lt (hd4 k (by omega) h2)

/-- Facts about one conditional median-of-3 swap
`if (LT(v[*i], v[*j])) SWAP(*i, *j)`: afterwards the key at `j` is at most
the key at `i`, other positions are untouched, and the pair of keys at
`(i, j)` is either kept or exchanged. -/
theorem condSwap_spec (v : List ℚ) (t : List Nat) (i j : Nat) (hij : i ≠ j)
    (hi : i < t.length) (hj : j < t.length) :
    (if keyAt v t i < keyAt v t j then lswap t i j else t).length = t.length ∧
    keyAt v (if keyAt v t i < keyAt v t j then lswap t i j else t) j ≤
      keyAt v (if keyAt v t i < keyAt v t j then lswap t i j else t) i ∧
    (∀ k, k ≠ i → k ≠ j →
      (if keyAt v t i < keyAt v t j then lswap t i j else t).getD k 0 = t.getD k 0) ∧
    ((keyAt v (if keyAt v t i < keyAt v t j then lswap t i j else t) i = keyAt v t i ∧
      keyAt v (if keyAt v t i < keyAt v t j then lswap t i j else t) j = keyAt v t j) ∨
     (keyAt v (if keyAt v t i < keyAt v t j then lswap t i j else t) i = keyAt v t j ∧
      keyAt v (if keyAt v t i < keyAt v t j then lswap t i j else t) j = keyAt v t i)) ∧
    ∀ lo hi, lo ≤ i → i ≤ hi → lo ≤ j → j ≤ hi →
      SegSub (if keyAt v t i < keyAt v t j then lswap t i j else t) t lo hi := by
  by_cases hc : keyAt v t i < keyAt v t j
  · rw [if_pos hc]
    have e1 : keyAt v (lswap t i j) i = keyAt v t j := by
      unfold keyAt; rw [lswap_getD_fst t i j hi hj]
    have e2 : keyAt v (lswap t i j) j = keyAt v t i := by
      unfold keyAt; rw [lswap_getD_snd t i j hj]
    refine ⟨lswap_length t i j, ?_, ?_, Or.inr ⟨e1, e2⟩, ?_⟩
    · rw [e1, e2]; exact le_of_lt hc
    · intro k h1 h2; exact lswap_getD_other t i j k h1 h2
    · intro lo hi' h1 h2 h3 h4; exact segSub_lswap t h1 h2 h3 h4 hi hj
  · rw [if_neg hc]
    exact ⟨rfl, le_of_not_lt hc, fun k _ _ => rfl, Or.inl ⟨rfl, rfl⟩,
      fun lo hi' _ _ _ _ => segSub_refl t lo hi'⟩

/-- Correctness of one full partition step on segment `[pl, pr]` (which has
at least 17 elements): the crossing point `PI` lands strictly inside the
segment, keys left of `PI` are at most the key at `PI`, keys right of it at
least, and nothing outside the segment moves. -/
theorem partitionStep_spec (v : List ℚ) (t : List Nat) (pl pr : Nat)
    (hseg : pl + 16 ≤ pr) (hlen : pr < t.length) :
    ∀ T PI, partitionStep v t pl pr = (T, PI) →
      T.length = t.length ∧
      (∀ k, k < pl ∨ pr < k → T.getD k 0 = t.getD k 0) ∧
      SegSub T t pl pr ∧
      pl + 1 ≤ PI ∧ PI ≤ pr - 1 ∧
      (∀ k, pl ≤ k → k + 1 ≤ PI → keyAt v T k ≤ keyAt v T PI) ∧
      (∀ k, PI + 1 ≤ k → k ≤ pr → keyAt v T PI ≤ keyAt v T k) := by
  intro T PI heq
  unfold partitionStep at heq
  set pm := pl + (pr - pl) / 2 with hpm
  have hpm1 : pl < pm := by omega
  have hpm2 : pm < pr - 1 := by omega
  obtain ⟨c1len, c1le, c1out, c1pair, c1sub⟩ :=
    condSwap_spec v t pm pl (by omega) (by omega) (by omega)
  set t1 := if keyAt v t pm < keyAt v t pl then lswap t pm pl else t with ht1
  obtain ⟨c2len, c2le, c2out, c2pair, c2sub⟩ :=
    condSwap_spec v t1 pr pm (by omega) (by omega) (by omega)
  set t2 := if keyAt v t1 pr < keyAt v t1 pm then lswap t1 pr pm else t1 with ht2
  obtain ⟨c3len, c3le, c3out, c3pair, c3sub⟩ :=
    condSwap_spec v t2 pm pl (by omega) (by omega) (by omega)
  set t3 := if keyAt v t2 pm < keyAt v t2 pl then lswap t2 pm pl else t2 with ht3
  set vp := keyAt v t3 pm with hvp
  set t4 := lswap t3 pm (pr - 1) with ht4
  have hlen3 : t3.length = t.length := by rw [c3len, c2len, c1len]
  have hlen4 : t4.length = t.length := by rw [ht4, lswap_length, hlen3]
  have hkey2pl : keyAt v t2 pl = keyAt v t1 pl := by
    unfold keyAt; rw [c2out pl (by omega) (by omega)]
  -- the three conditional swaps establish  key t3 pl ≤ vp ≤ key t3 pr
  have hlow : keyAt v t3 pl ≤ vp := c3le
  have hmid : keyAt v t1 pm ≤ keyAt v t2 pr := by
    rcases c2pair with ⟨e1, e2⟩ | ⟨e1, e2⟩
    · rw [← e2]; exact c2le
    · rw [e1]
  have hhigh : vp ≤ keyAt v t3 pr := by
    have e3 : keyAt v t3 pr = keyAt v t2 pr := by
      unfold keyAt; rw [c3out pr (by omega) (by omega)]
    rw [e3]
    rcases c3pair with ⟨e1, _⟩ | ⟨e1, _⟩
    · rw [e1]; exact c2le
    · rw [e1, hkey2pl]; exact c1le.trans hmid
  have h4sent : keyAt v t4 (pr - 1) = vp := by
    rw [ht4]; unfold keyAt; rw [lswap_getD_snd t3 pm (pr - 1) (by omega)]
    rfl
  have h4pl : keyAt v t4 pl ≤ vp := by
    rw [ht4]; unfold keyAt
    rw [lswap_getD_other t3 pm (pr - 1) pl (by omega) (by omega)]
    exact hlow
  have h4pr : vp ≤ keyAt v t4 pr := by
    rw [ht4]; unfold keyAt
    rw [lswap_getD_other t3 pm (pr - 1) pr (by omega) (by omega)]
    exact hhigh
  obtain ⟨g1, g2, g3, g4, g5, g6, g7, g8⟩ :=
    partLoop_spec v vp pl pr t4.length t4 pl (pr - 1)
      (partLoop v vp t4.length t4 pl (pr - 1)).1
      (partLoop v vp t4.length t4 pl (pr - 1)).2 rfl
      (by omega) (by omega)
      (by intro k hk1 hk2; have : k = pl := by omega
          subst this; exact h4pl)
      (by intro k hk1 hk2
          rcases Nat.eq_or_lt_of_le hk1 with h | h
          · rw [← h]; rw [h4sent]
          · have : k = pr := by omega
            subst this; exact h4pr)
      h4sent (by omega) (le_refl pl) (by omega) (by omega)
  set T5 := (partLoop v vp t4.length t4 pl (pr - 1)).1 with hT5
  set PI5 := (partLoop v vp t4.length t4 pl (pr - 1)).2 with hPI5
  have hTeq : T = lswap T5 PI5 (pr - 1) := (congrArg Prod.fst heq).symm
  have hPIeq : PI = PI5 := (congrArg Prod.snd heq).symm
  subst hTeq
  subst hPIeq
  have hT5len : T5.length = t.length := by rw [g1, hlen4]
  have hkeyPI : keyAt v (lswap T5 PI5 (pr - 1)) PI5 = vp := by
    unfold keyAt
    rw [lswap_getD_fst T5 PI5 (pr - 1) (by omega) (by omega)]
    exact g8
  refine ⟨by rw [lswap_length, hT5len], ?_, ?_, by omega, g5, ?_, ?_⟩
  · -- positions strictly outside [pl, pr] are unchanged
    intro k hk
    rw [lswap_getD_other T5 PI5 (pr - 1) k (by omega) (by omega),
      g2 k (by omega)]
    rw [ht4, lswap_getD_other t3 pm (pr - 1) k (by omega) (by omega),
      c3out k (by omega) (by omega), c2out k (by omega) (by omega),
      c1out k (by omega) (by omega)]
  · -- SegSub over [pl, pr]
    refine segSub_trans (segSub_lswap T5 (show pl ≤ PI5 by omega) (by omega)
      (by omega) (by omega) (by omega) (by omega)) ?_
    refine segSub_trans g3 ?_
    have hsub4 : SegSub t4 t3 pl pr := by
      rw [ht4]
      exact segSub_lswap t3 (by omega) (by omega) (by omega) (by omega) (by omega) (by omega)
    refine segSub_trans hsub4 ?_
    refine segSub_trans (c3sub pl pr (by omega) (by omega) (by omega) (by omega)) ?_
    exact segSub_trans (c2sub pl pr (by omega) (by omega) (by omega) (by omega))
      (c1sub pl pr (by omega) (by omega) (by omega) (by omega))
  · -- keys left of PI are ≤ key at PI
    intro k hk1 hk2
    rw [hkeyPI]
    unfold keyAt
    rw [lswap_getD_other T5 PI5 (pr - 1) k (by omega) (by omega)]
    exact g6 k hk1 hk2
  · -- keys right of PI are ≥ key at PI
    intro k hk1 hk2
    rw [hkeyPI]
    rcases eq_or_ne k (pr - 1) with h | h
    · subst h
      unfold keyAt
      rw [lswap_getD_snd T5 PI5 (pr - 1) (by omega)]
      exact g7 PI5 (le_refl PI5) (by omega)
    · unfold keyAt
      rw [lswap_getD_other T5 PI5 (pr - 1) k (by omega) h]
      exact g7 k (by omega) hk2

/-- Correctness of the insertion shift: writing the index `vi` into its
place in the sorted prefix `[pl, pj-1]`, with the already-shifted sorted
tail `[pj+1, hi]` strictly above `vi`'s key, yields a sorted segment
`[pl, hi]`; positions outside `[pl, hi]` are untouched, and segment
positions hold `vi` or old segment entries. -/
theorem shiftIns_spec (v : List ℚ) (vi : Nat) (pl hi : Nat) :
    ∀ pj t, pl ≤ pj → pj ≤ hi → hi < t.length →
      SegSorted v t pl (pj - 1) →
      SegSorted v t (pj + 1) hi →
      (pl < pj → pj + 1 ≤ hi → keyAt v t (pj - 1) ≤ keyAt v t (pj + 1)) →
      (∀ k, pj + 1 ≤ k → k ≤ hi → idxVal v vi < keyAt v t k) →
      (shiftIns v vi pl t pj).length = t.length ∧
      (∀ k, k < pl ∨ hi < k → (shiftIns v vi pl t pj).getD k 0 = t.getD k 0) ∧
      (∀ k, pl ≤ k → k ≤ hi → (shiftIns v vi pl t pj).getD k 0 = vi ∨
        ∃ m, pl ≤ m ∧ m ≤ hi ∧ (shiftIns v vi pl t pj).getD k 0 = t.getD m 0) ∧
      SegSorted v (shiftIns v vi pl t pj) pl hi := by
  intro pj
  induction pj with
  | zero =>
    intro t hpl hhi hlen hA hB hC hD
    have hpl0 : pl = 0 := Nat.le_zero.mp hpl
    subst hpl0
    rw [shiftIns]
    have hset : ∀ k, k ≠ 0 → (t.set 0 vi).getD k 0 = t.getD k 0 :=
      fun k h => getD_set_other t 0 k vi (Ne.symm h)
    have hself : (t.set 0 vi).getD 0 0 = vi := getD_set_self t 0 vi (by omega)
    refine ⟨List.length_set t 0 vi, ?_, ?_, ?_⟩
    · intro k hk; exact hset k (by omega)
    · intro k hk1 hk2
      rcases Nat.eq_zero_or_pos k with rfl | hk
      · exact Or.inl hself
      · exact Or.inr ⟨k, hk1, hk2, hset k (by omega)⟩
    · intro k hk1 hk2
      rcases Nat.eq_zero_or_pos k with rfl | hk
      · unfold keyAt
        rw [hself, hset 1 (by omega)]
        exact le_of_lt (hD 1 (le_refl 1) hk2)
      · unfold keyAt
        rw [hset k (by omega), hset (k + 1) (by omega)]
        exact hB k (by omega) hk2
  | succ pj ih =>
    intro t hpl hhi hlen hA hB hC hD
    rw [shiftIns]
    by_cases hcond : pl < pj + 1 ∧ idxVal v vi < keyAt v t pj
    · rw [if_pos hcond]
      have hset : ∀ k, k ≠ pj + 1 →
          (t.set (pj + 1) (t.getD pj 0)).getD k 0 = t.getD k 0 :=
        fun k h => getD_set_other t (pj + 1) k (t.getD pj 0) (Ne.symm h)
      have hkset : ∀ k, k ≠ pj + 1 →
          keyAt v (t.set (pj + 1) (t.getD pj 0)) k = keyAt v t k := by
        intro k h; unfold keyAt; rw [hset k h]
      have hself : (t.set (pj + 1) (t.getD pj 0)).getD (pj + 1) 0 = t.getD pj 0 :=
        getD_set_self t (pj + 1) (t.getD pj 0) (by omega)
      have hkself : keyAt v (t.set (pj + 1) (t.getD pj 0)) (pj + 1) = keyAt v t pj := by
        unfold keyAt; rw [hself]
      obtain ⟨s1, s2, s3, s4⟩ := ih (t.set (pj + 1) (t.getD pj 0))
        (by omega) (by omega) (by simpa using hlen)
        (by intro k hk1 hk2
            rw [hkset k (by omega), hkset (k + 1) (by omega)]
            exact hA k hk1 (by omega))
        (by intro k hk1 hk2
            rcases Nat.eq_or_lt_of_le hk1 with h | h
            · rw [← h, hkself, hkset (pj + 2) (by omega)]
              exact hC hcond.1 (by omega)
            · rw [hkset k (by omega), hkset (k + 1) (by omega)]
              exact hB k (by omega) hk2)
        (by intro h1 h2
            rw [hkset (pj - 1) (by omega), hkself]
            have := hA (pj - 1) (by omega) (by omega)
            rwa [Nat.sub_add_cancel (by omega)] at this)
        (by intro k hk1 hk2
            rcases Nat.eq_or_lt_of_le hk1 with h | h
            · rw [← h, hkself]
              exact hcond.2
            · rw [hkset k (by omega)]
              exact hD k (by omega) hk2)
      refine ⟨s1.trans (List.length_set t (pj + 1) (t.getD pj 0)), ?_, ?_, s4⟩
      · intro k hk
        rw [s2 k hk, hset k (by omega)]
      · intro k hk1 hk2
        rcases s3 k hk1 hk2 with h | ⟨m, hm1, hm2, hm⟩
        · exact Or.inl h
        rcases eq_or_ne m (pj + 1) with rfl | hne
        · rw [hself] at hm
          exact Or.inr ⟨pj, by omega, by omega, hm⟩
        · rw [hset m hne] at hm
          exact Or.inr ⟨m, hm1, hm2, hm⟩
    · rw [if_neg hcond]
      have hset : ∀ k, k ≠ pj + 1 → (t.set (pj + 1) vi).getD k 0 = t.getD k 0 :=
        fun k h => getD_set_other t (pj + 1) k vi (Ne.symm h)
      have hkset : ∀ k, k ≠ pj + 1 → keyAt v (t.set (pj + 1) vi) k = keyAt v t k := by
        intro k h; unfold keyAt; rw [hset k h]
      have hself : (t.set (pj + 1) vi).getD (pj + 1) 0 = vi :=
        getD_set_self t (pj + 1) vi (by omega)
      have hkself : keyAt v (t.set (pj + 1) vi) (pj + 1) = idxVal v vi := by
        unfold keyAt; rw [hself]
      refine ⟨List.length_set t (pj + 1) vi, ?_, ?_, ?_⟩
      · intro k hk; exact hset k (by omega)
      · intro k hk1 hk2
        rcases eq_or_ne k (pj + 1) with rfl | hne
        · exact Or.inl hself
        · exact Or.inr ⟨k, hk1, hk2, hset k hne⟩
      · rcases Nat.eq_or_lt_of_le hpl with hple | hplt
        · -- stopped at the left end: pl = pj + 1
          intro k hk1 hk2
          rcases Nat.eq_or_lt_of_le hk1 with h | h
          · have hk : k = pj + 1 := by omega
            rw [hk, show pj + 1 + 1 = pj + 2 from rfl, hkself, hkset (pj + 2) (by omega)]
            exact le_of_lt (hD (pj + 2) (by omega) (by omega))
          · rw [hkset k (by omega), hkset (k + 1) (by omega)]
            exact hB k (by omega) hk2
        · -- stopped because key t pj ≤ key of vi
          have hstop : keyAt v t pj ≤ idxVal v vi := by
            by_contra hlt
            exact hcond ⟨hplt, lt_of_not_le hlt⟩
          intro k hk1 hk2
          rcases Nat.lt_or_ge (k + 1) (pj + 1) with h1 | h1
          · rw [hkset k (by omega), hkset (k + 1) (by omega)]
            have := hA k hk1 (by omega)
            exact this
          rcases Nat.eq_or_lt_of_le h1 with h2 | h2
          · have hk : k = pj := by omega
            rw [← h2, hkself, hkset k (by omega), hk]
            exact hstop
          rcases Nat.eq_or_lt_of_le (show pj + 1 ≤ k by omega) with h3 | h3
          · rw [← h3, hkself, hkset (pj + 2) (by omega)]
            exact le_of_lt (hD (pj + 2) (by omega) (by omega))
          · rw [hkset k (by omega), hkset (k + 1) (by omega)]
            exact hB k (by omega) hk2

/-- Correctness of the segment insertion sort: starting from a sorted prefix
`[pl, i-1]`, the loop leaves `[pl, pr]` sorted, touches nothing outside it,
and keeps segment entries within the segment. -/
theorem insLoop_spec (v : List ℚ) (pl pr : Nat) :
    ∀ fuel t i, pl < i → pr < t.length → pr + 1 ≤ i + fuel →
      SegSorted v t pl (i - 1) →
      (insLoop v pl pr fuel t i).length = t.length ∧
      (∀ k, k < pl ∨ pr < k → (insLoop v pl pr fuel t i).getD k 0 = t.getD k 0) ∧
      SegSub (insLoop v pl pr fuel t i) t pl pr ∧
      SegSorted v (insLoop v pl pr fuel t i) pl pr := by
  intro fuel
  induction fuel with
  | zero =>
    intro t i h1 h2 h3 hsort
    exact ⟨rfl, fun k _ => rfl, segSub_refl t pl pr,
      segSorted_mono hsort (by omega)⟩
  | succ fuel ih =>
    intro t i h1 h2 h3 hsort
    rw [insLoop]
    by_cases hc : i ≤ pr
    · rw [if_pos hc]
      obtain ⟨s1, s2, s3, s4⟩ := shiftIns_spec v (t.getD i 0) pl i i t
        (by omega) (le_refl i) (by omega) hsort
        (by intro k hk1 hk2; omega)
        (by intro hh1 hh2; omega)
        (by intro k hk1 hk2; omega)
      obtain ⟨g1, g2, g3, g4⟩ := ih (shiftIns v (t.getD i 0) pl t i) (i + 1)
        (by omega) (by rw [s1]; exact h2) (by omega)
        (by simpa using s4)
      refine ⟨g1.trans s1, ?_, ?_, g4⟩
      · intro k hk
        rw [g2 k hk, s2 k (by omega)]
      · refine segSub_trans g3 ?_
        intro k hk1 hk2
        rcases le_or_lt k i with hki | hki
        · rcases s3 k hk1 hki with h | ⟨m, hm1, hm2, hm⟩
          · exact ⟨i, by omega, by omega, h⟩
          · exact ⟨m, hm1, by omega, hm⟩
        · exact ⟨k, hk1, hk2, s2 k (by omega)⟩
    · rw [if_neg hc]
      exact ⟨rfl, fun k _ => rfl, segSub_refl t pl pr,
        segSorted_mono hsort (by omega)⟩

/-- The statement of `aqsortSeg`'s correctness at a given fuel: on a segment
smaller than the fuel and inside the array, the result is sorted on the
segment, unchanged outside it, of unchanged length, with segment entries
drawn from the segment. -/
def AqSpec (v : List ℚ) (fuel : Nat) : Prop :=
  ∀ t pl pr, pr - pl < fuel → pr < t.length →
    (aqsortSeg v fuel t pl pr).length = t.length ∧
    (∀ k, k < pl ∨ pr < k → (aqsortSeg v fuel t pl pr).getD k 0 = t.getD k 0) ∧
    SegSub (aqsortSeg v fuel t pl pr) t pl pr ∧
    SegSorted v (aqsortSeg v fuel t pl pr) pl pr

/-- Auxiliary step: sorting first one side of a partition and then the other
(in either order both appear in the code) yields a sorted segment. -/
theorem aqStep (v : List ℚ) (fuel : Nat) (hih : AqSpec v fuel) :
    ∀ t pl pr, pr - pl < fuel + 1 → pr < t.length → 15 < pr - pl →
    ∀ tA tB PI, partitionStep v t pl pr = (tA, PI) →
      ((tB = aqsortSeg v fuel (aqsortSeg v fuel tA pl (PI - 1)) (PI + 1) pr) ∨
       (tB = aqsortSeg v fuel (aqsortSeg v fuel tA (PI + 1) pr) pl (PI - 1))) →
      tB.length = t.length ∧
      (∀ k, k < pl ∨ pr < k → tB.getD k 0 = t.getD k 0) ∧
      SegSub tB t pl pr ∧
      SegSorted v tB pl pr := by
  intro t pl pr hfuel hlen hbig tA tB PI heq hor
  obtain ⟨p1, p2, p3, p4, p5, p6, p7⟩ :=
    partitionStep_spec v t pl pr (by omega) hlen tA PI heq
  -- facts about sorting the two sides in either order
  rcases hor with rfl | rfl
  · -- left side first
    obtain ⟨a1, a2, a3, a4⟩ := hih tA pl (PI - 1) (by omega) (by omega)
    set tL := aqsortSeg v fuel tA pl (PI - 1) with htL
    obtain ⟨b1, b2, b3, b4⟩ := hih tL (PI + 1) pr (by omega) (by omega)
    set tR := aqsortSeg v fuel tL (PI + 1) pr with htR
    have hmidL : keyAt v tR PI = keyAt v tA PI := by
      unfold keyAt
      rw [b2 PI (by omega), a2 PI (by omega)]
    have hleftkeys : ∀ k, pl ≤ k → k + 1 ≤ PI → keyAt v tR k ≤ keyAt v tA PI := by
      have hLkeys : ∀ k, pl ≤ k → k ≤ PI - 1 → keyAt v tL k ≤ keyAt v tA PI := by
        have := segSub_transfer (fun e => idxVal v e ≤ keyAt v tA PI) a3
          (fun k hk1 hk2 => p6 k hk1 (by omega))
        intro k hk1 hk2; exact this k hk1 hk2
      intro k hk1 hk2
      unfold keyAt
      rw [b2 k (by omega)]
      exact hLkeys k hk1 (by omega)
    have hrightkeys : ∀ k, PI + 1 ≤ k → k ≤ pr → keyAt v tA PI ≤ keyAt v tR k := by
      have hLsame : ∀ k, PI + 1 ≤ k → k ≤ pr → tL.getD k 0 = tA.getD k 0 := by
        intro k hk1 hk2; exact a2 k (by omega)
      have hLkeys : ∀ k, PI + 1 ≤ k → k ≤ pr → keyAt v tA PI ≤ keyAt v tL k := by
        intro k hk1 hk2
        unfold keyAt
        rw [hLsame k hk1 hk2]
        exact p7 k hk1 hk2
      exact segSub_transfer (fun e => keyAt v tA PI ≤ idxVal v e) b3 hLkeys
    have hsortL : SegSorted v tR pl (PI - 1) := by
      intro k hk1 hk2
      unfold keyAt
      rw [b2 k (by omega), b2 (k + 1) (by omega)]
      exact a4 k hk1 hk2
    refine ⟨by rw [b1, a1, p1], ?_, ?_, ?_⟩
    · intro k hk
      rw [b2 k (by omega), a2 k (by omega), p2 k hk]
    · refine segSub_trans (segSub_extend (show pl ≤ PI + 1 by omega)
        (le_refl pr) b3 (fun k hk1 hk2 hout => b2 k (by omega))) ?_
      refine segSub_trans (segSub_extend (le_refl pl)
        (show PI - 1 ≤ pr by omega) a3 (fun k hk1 hk2 hout => a2 k (by omega))) p3
    · refine segSorted_glue hsortL b4 ?_ ?_
      · intro k hk1 hk2
        rw [show keyAt v tR PI = keyAt v tA PI from hmidL]
        exact hleftkeys k hk1 hk2
      · intro k hk1 hk2
        rw [show keyAt v tR PI = keyAt v tA PI from hmidL]
        exact hrightkeys k hk1 hk2
  · -- right side first
    obtain ⟨a1, a2, a3, a4⟩ := hih tA (PI + 1) pr (by omega) (by omega)
    set tR := aqsortSeg v fuel tA (PI + 1) pr with htR
    obtain ⟨b1, b2, b3, b4⟩ := hih tR pl (PI - 1) (by omega) (by omega)
    set tL := aqsortSeg v fuel tR pl (PI - 1) with htL
    have hmidL : keyAt v tL PI = keyAt v tA PI := by
      unfold keyAt
      rw [b2 PI (by omega), a2 PI (by omega)]
    have hleftkeys : ∀ k, pl ≤ k → k + 1 ≤ PI → keyAt v tL k ≤ keyAt v tA PI := by
      have hRsame : ∀ k, pl ≤ k → k ≤ PI - 1 → tR.getD k 0 = tA.getD k 0 := by
        intro k hk1 hk2; exact a2 k (by omega)
      have hRkeys : ∀ k, pl ≤ k → k ≤ PI - 1 → keyAt v tR k ≤ keyAt v tA PI := by
        intro k hk1 hk2
        unfold keyAt
        rw [hRsame k hk1 hk2]
        exact p6 k hk1 (by omega)
      have := segSub_transfer (fun e => idxVal v e ≤ keyAt v tA PI) b3 hRkeys
      intro k hk1 hk2; exact this k hk1 (by omega)
    have hrightkeys : ∀ k, PI + 1 ≤ k → k ≤ pr → keyAt v tA PI ≤ keyAt v tL k := by
      have hRkeys : ∀ k, PI + 1 ≤ k → k ≤ pr → keyAt v tA PI ≤ keyAt v tR k :=
        segSub_transfer (fun e => keyAt v tA PI ≤ idxVal v e) a3 p7
      intro k hk1 hk2
      unfold keyAt
      rw [b2 k (by omega)]
      exact hRkeys k hk1 hk2
    have hsortR : SegSorted v tL (PI + 1) pr := by
      intro k hk1 hk2
      unfold keyAt
      rw [b2 k (by omega), b2 (k + 1) (by omega)]
      exact a4 k hk1 hk2
    refine ⟨by rw [b1, a1, p1], ?_, ?_, ?_⟩
    · intro k hk
      rw [b2 k (by omega), a2 k (by omega), p2 k hk]
    · refine segSub_trans (segSub_extend (le_refl pl)
        (show PI - 1 ≤ pr by omega) b3 (fun k hk1 hk2 hout => b2 k (by omega))) ?_
      refine segSub_trans (segSub_extend (show pl ≤ PI + 1 by omega)
        (le_refl pr) a3 (fun k hk1 hk2 hout => a2 k (by omega))) p3
    · refine segSorted_glue b4 hsortR ?_ ?_
      · intro k hk1 hk2
        rw [show keyAt v tL PI = keyAt v tA PI from hmidL]
        exact hleftkeys k hk1 hk2
      · intro k hk1 hk2
        rw [show keyAt v tL PI = keyAt v tA PI from hmidL]
        exact hrightkeys k hk1 hk2

/-- Correctness of the quicksort at every fuel level. -/
theorem aqSpec_all (v : List ℚ) : ∀ fuel, AqSpec v fuel := by
  intro fuel
  induction fuel with
  | zero => intro t pl pr h1 h2; omega
  | succ fuel ih =>
    intro t pl pr h1 h2
    simp only [aqsortSeg]
    by_cases hbig : 15 < pr - pl
    · rw [if_pos hbig]
      by_cases hside : (partitionStep v t pl pr).2 - pl < pr - (partitionStep v t pl pr).2
      · rw [if_pos hside]
        exact aqStep v fuel ih t pl pr h1 h2 hbig
          (partitionStep v t pl pr).1 _ (partitionStep v t pl pr).2 rfl (Or.inl rfl)
      · rw [if_neg hside]
        exact aqStep v fuel ih t pl pr h1 h2 hbig
          (partitionStep v t pl pr).1 _ (partitionStep v t pl pr).2 rfl (Or.inr rfl)
    · rw [if_neg hbig]
      exact insLoop_spec v pl pr t.length t (pl + 1) (by omega) h2 (by omega)
        (by intro k hk1 hk2; omega)

/-- Top-level facts about `npArgsort`: the order array has the input's
length, reading keys through it is non-decreasing, and its entries are
valid input positions. -/
theorem npArgsort_spec (v : List ℚ) :
    (npArgsort v).length = v.length ∧
    SegSorted v (npArgsort v) 0 (v.length - 1) ∧
    ∀ k, k < v.length → (npArgsort v).getD k 0 < v.length := by
  rcases Nat.eq_zero_or_pos v.length with h0 | hpos
  · refine ⟨?_, ?_, ?_⟩
    · rw [npArgsort, h0]
      simp [aqsortSeg]
    · intro k hk1 hk2
      omega
    · intro k hk
      omega
  · obtain ⟨g1, g2, g3, g4⟩ := aqSpec_all v v.length (List.range v.length) 0 (v.length - 1)
      (by omega) (by rw [List.length_range]; omega)
    refine ⟨?_, g4, ?_⟩
    · rw [npArgsort, g1, List.length_range]
    · intro k hk
      obtain ⟨m, hm1, hm2, hm⟩ := g3 k (by omega) (by omega)
      rw [npArgsort, hm, getD_range _ _ (by omega)]
      omega

theorem applyPermQ_length (xs : List ℚ) (order : List Nat) :
    (applyPermQ xs order).length = order.length := by
  simp [applyPermQ]

theorem applyPermS_len (d : StrArray) (order : List Nat) :
    (applyPermS d order).len = order.length := by
  cases d <;> simp [applyPermS, StrArray.len]

theorem applyPermQ_getD (xs : List ℚ) (order : List Nat) (k : Nat) (h : k < order.length) :
    (applyPermQ xs order).getD k 0 = keyAt xs order k := by
  unfold applyPermQ keyAt idxVal
  exact getD_map_rat order _ k h

/-- A plain list of rationals is non-decreasing position by position. -/
def IsNonDecr (l : List ℚ) : Prop :=
  ∀ k, k + 1 < l.length → l.getD k 0 ≤ l.getD (k + 1) 0

/-- Successful construction, written out: the three fields are the input
arrays permuted by `npArgsort onset` and the normalized origin time. -/
theorem annotationsInit_ok (o d : List ℚ) (desc : StrArray) (ot : Option OrigTimeIn)
    (h1 : o.length = d.length) (h2 : d.length = desc.len) :
    annotationsInit (.d1 o) (.d1 d) desc ot =
      .ok ⟨applyPermQ o (npArgsort o), applyPermQ d (npArgsort o),
           applyPermS desc (npArgsort o), normalizeOrigTime ot⟩ := by
  simp only [annotationsInit]
  rw [if_pos ⟨h1, h2⟩]

/-- Inversion of successful construction. -/
theorem annotationsInit_ok_inv (onset duration : NumArray) (desc : StrArray)
    (ot : Option OrigTimeIn) (ann : Annotations)
    (h : annotationsInit onset duration desc ot = .ok ann) :
    ∃ o d, onset = .d1 o ∧ duration = .d1 d ∧ o.length = d.length ∧ d.length = desc.len ∧
      ann = ⟨applyPermQ o (npArgsort o), applyPermQ d (npArgsort o),
             applyPermS desc (npArgsort o), normalizeOrigTime ot⟩ := by
  cases onset with
  | d0 q => exact absurd h (by simp [annotationsInit])
  | d2 qss => exact absurd h (by simp [annotationsInit])
  | d1 o =>
    cases duration with
    | d0 q => exact absurd h (by simp [annotationsInit])
    | d2 qss => exact absurd h (by simp [annotationsInit])
    | d1 d =>
      by_cases hlen : o.length = d.length ∧ d.length = desc.len
      · rw [annotationsInit_ok o d desc ot hlen.1 hlen.2] at h
        exact ⟨o, d, rfl, rfl, hlen.1, hlen.2, (Except.ok.injEq _ _ ▸ h).symm⟩
      · simp only [annotationsInit] at h
        rw [if_neg hlen] at h
        exact absurd h (by simp)

/-- Strict lexicographic comparison of two positions of the index array: by
key first, by stored original position second. -/
def LexLT (v : List ℚ) (t : List Nat) (p q : Nat) : Prop :=
  keyAt v t p < keyAt v t q ∨ (keyAt v t p = keyAt v t q ∧ t.getD p 0 < t.getD q 0)

/-- Adjacent positions of `[lo, hi]` are strictly lex-increasing. -/
def SegLexSorted (v : List ℚ) (t : List Nat) (lo hi : Nat) : Prop :=
  ∀ k, lo ≤ k → k < hi → LexLT v t k (k + 1)

theorem segLexSorted_mono {v : List ℚ} {t : List Nat} {lo hi hi' : Nat}
    (h : SegLexSorted v t lo hi) (hh : hi' ≤ hi) : SegLexSorted v t lo hi' :=
  fun k hk1 hk2 => h k hk1 (lt_of_lt_of_le hk2 hh)

theorem lexLT_trans {v : List ℚ} {t : List Nat} {p q r : Nat}
    (h1 : LexLT v t p q) (h2 : LexLT v t q r) : LexLT v t p r := by
  rcases h1 with h1 | ⟨h1a, h1b⟩
  · rcases h2 with h2 | ⟨h2a, _⟩
    · exact Or.inl (h1.trans h2)
    · exact Or.inl (h2a ▸ h1)
  · rcases h2 with h2 | ⟨h2a, h2b⟩
    · exact Or.inl (h1a ▸ h2)
    · exact Or.inr ⟨h1a.trans h2a, h1b.trans h2b⟩

theorem segLexSorted_lt {v : List ℚ} {t : List Nat} {lo hi : Nat}
    (h : SegLexSorted v t lo hi) : ∀ q p, lo ≤ p → p < q → q ≤ hi → LexLT v t p q := by
  intro q
  induction q with
  | zero => intro p _ hpq _; omega
  | succ q ih =>
    intro p hp hpq hq
    rcases Nat.eq_or_lt_of_le (Nat.le_of_lt_succ hpq) with hcase | hcase
    · rw [hcase]
      exact h q (hcase ▸ hp) (by omega)
    · exact lexLT_trans (ih p hp hcase (by omega)) (h q (by omega) (by omega))

/-- Lexicographic version of `shiftIns_spec`, used for the stability
analysis of the insertion-sort regime: when every entry of the prefix is a
smaller original position than `vi`, insertion by strict key comparison
keeps the segment strictly lex-sorted. -/
theorem shiftIns_lex_spec (v : List ℚ) (vi : Nat) (pl hi : Nat) :
    ∀ pj t, pl ≤ pj → pj ≤ hi → hi < t.length →
      SegLexSorted v t pl (pj - 1) →
      SegLexSorted v t (pj + 1) hi →
      (pl < pj → pj + 1 ≤ hi → LexLT v t (pj - 1) (pj + 1)) →
      (∀ k, pj + 1 ≤ k → k ≤ hi → idxVal v vi < keyAt v t k) →
      (∀ k, pl ≤ k → k + 1 ≤ pj → t.getD k 0 < vi) →
      (shiftIns v vi pl t pj).length = t.length ∧
      (∀ k, k < pl ∨ hi < k → (shiftIns v vi pl t pj).getD k 0 = t.getD k 0) ∧
      (∀ k, pl ≤ k → k ≤ hi → (shiftIns v vi pl t pj).getD k 0 = vi ∨
        ∃ m, pl ≤ m ∧ m ≤ hi ∧ (shiftIns v vi pl t pj).getD k 0 = t.getD m 0) ∧
      SegLexSorted v (shiftIns v vi pl t pj) pl hi := by
  intro pj
  induction pj with
  | zero =>
    intro t hpl hhi hlen hA hB hC hD hE
    have hpl0 : pl = 0 := Nat.le_zero.mp hpl
    subst hpl0
    rw [shiftIns]
    have hset : ∀ k, k ≠ 0 → (t.set 0 vi).getD k 0 = t.getD k 0 :=
      fun k h => getD_set_other t 0 k vi (Ne.symm h)
    have hkset : ∀ k, k ≠ 0 → keyAt v (t.set 0 vi) k = keyAt v t k := by
      intro k h; unfold keyAt; rw [hset k h]
    have hself : (t.set 0 vi).getD 0 0 = vi := getD_set_self t 0 vi (by omega)
    have hkself : keyAt v (t.set 0 vi) 0 = idxVal v vi := by
      unfold keyAt; rw [hself]
    refine ⟨List.length_set t 0 vi, ?_, ?_, ?_⟩
    · intro k hk; exact hset k (by omega)
    · intro k hk1 hk2
      rcases Nat.eq_zero_or_pos k with rfl | hk
      · exact Or.inl hself
      · exact Or.inr ⟨k, hk1, hk2, hset k (by omega)⟩
    · intro k hk1 hk2
      rcases Nat.eq_zero_or_pos k with rfl | hk
      · refine Or.inl ?_
        rw [hkself, hkset 1 (by omega)]
        exact hD 1 (by omega) (by omega)
      · unfold LexLT
        rw [hkset k (by omega), hkset (k + 1) (by omega),
          hset k (by omega), hset (k + 1) (by omega)]
        exact hB k (by omega) hk2
  | succ pj ih =>
    intro t hpl hhi hlen hA hB hC hD hE
    rw [shiftIns]
    by_cases hcond : pl < pj + 1 ∧ idxVal v vi < keyAt v t pj
    · rw [if_pos hcond]
      have hset : ∀ k, k ≠ pj + 1 →
          (t.set (pj + 1) (t.getD pj 0)).getD k 0 = t.getD k 0 :=
        fun k h => getD_set_other t (pj + 1) k (t.getD pj 0) (Ne.symm h)
      have hkset : ∀ k, k ≠ pj + 1 →
          keyAt v (t.set (pj + 1) (t.getD pj 0)) k = keyAt v t k := by
        intro k h; unfold keyAt; rw [hset k h]
      have hself : (t.set (pj + 1) (t.getD pj 0)).getD (pj + 1) 0 = t.getD pj 0 :=
        getD_set_self t (pj + 1) (t.getD pj 0) (by omega)
      have hkself : keyAt v (t.set (pj + 1) (t.getD pj 0)) (pj + 1) = keyAt v t pj := by
        unfold keyAt; rw [hself]
      obtain ⟨s1, s2, s3, s4⟩ := ih (t.set (pj + 1) (t.getD pj 0))
        (by omega) (by omega) (by simpa using hlen)
        (by intro k hk1 hk2
            unfold LexLT
            rw [hkset k (by omega), hkset (k + 1) (by omega),
              hset k (by omega), hset (k + 1) (by omega)]
            exact hA k hk1 (by omega))
        (by intro k hk1 hk2
            rcases Nat.eq_or_lt_of_le hk1 with h | h
            · unfold LexLT
              rw [← h, hkself, hkset (pj + 2) (by omega), hself, hset (pj + 2) (by omega)]
              exact hC hcond.1 (by omega)
            · unfold LexLT
              rw [hkset k (by omega), hkset (k + 1) (by omega),
                hset k (by omega), hset (k + 1) (by omega)]
              exact hB k (by omega) hk2)
        (by intro h1 h2
            unfold LexLT
            rw [hkset (pj - 1) (by omega), hkself, hset (pj - 1) (by omega), hself]
            have := hA (pj - 1) (by omega) (by omega)
            rwa [Nat.sub_add_cancel (by omega)] at this)
        (by intro k hk1 hk2
            rcases Nat.eq_or_lt_of_le hk1 with h | h
            · rw [← h, hkself]
              exact hcond.2
            · rw [hkset k (by omega)]
              exact hD k (by omega) hk2)
        (by intro k hk1 hk2
            rw [hset k (by omega)]
            exact hE k hk1 (by omega))
      refine ⟨s1.trans (List.length_set t (pj + 1) (t.getD pj 0)), ?_, ?_, s4⟩
      · intro k hk
        rw [s2 k hk, hset k (by omega)]
      · intro k hk1 hk2
        rcases s3 k hk1 hk2 with h | ⟨m, hm1, hm2, hm⟩
        · exact Or.inl h
        rcases eq_or_ne m (pj + 1) with rfl | hne
        · rw [hself] at hm
          exact Or.inr ⟨pj, by omega, by omega, hm⟩
        · rw [hset m hne] at hm
          exact Or.inr ⟨m, hm1, hm2, hm⟩
    · rw [if_neg hcond]
      have hset : ∀ k, k ≠ pj + 1 → (t.set (pj + 1) vi).getD k 0 = t.getD k 0 :=
        fun k h => getD_set_other t (pj + 1) k vi (Ne.symm h)
      have hkset : ∀ k, k ≠ pj + 1 → keyAt v (t.set (pj + 1) vi) k = keyAt v t k := by
        intro k h; unfold keyAt; rw [hset k h]
      have hself : (t.set (pj + 1) vi).getD (pj + 1) 0 = vi :=
        getD_set_self t (pj + 1) vi (by omega)
      have hkself : keyAt v (t.set (pj + 1) vi) (pj + 1) = idxVal v vi := by
        unfold keyAt; rw [hself]
      refine ⟨List.length_set t (pj + 1) vi, ?_, ?_, ?_⟩
      · intro k hk; exact hset k (by omega)
      · intro k hk1 hk2
        rcases eq_or_ne k (pj + 1) with rfl | hne
        · exact Or.inl hself
        · exact Or.inr ⟨k, hk1, hk2, hset k hne⟩
      · rcases Nat.eq_or_lt_of_le hpl with hple | hplt
        · -- stopped at the left end: pl = pj + 1
          intro k hk1 hk2
          rcases Nat.eq_or_lt_of_le hk1 with h | h
          · have hk : k = pj + 1 := by omega
            refine Or.inl ?_
            rw [hk, show pj + 1 + 1 = pj + 2 from rfl, hkself, hkset (pj + 2) (by omega)]
            exact hD (pj + 2) (by omega) (by omega)
          · unfold LexLT
            rw [hkset k (by omega), hkset (k + 1) (by omega),
              hset k (by omega), hset (k + 1) (by omega)]
            exact hB k (by omega) hk2
        · -- stopped because key t pj ≤ key of vi
          have hstop : keyAt v t pj ≤ idxVal v vi := by
            by_contra hlt
            exact hcond ⟨hplt, lt_of_not_le hlt⟩
          intro k hk1 hk2
          rcases Nat.lt_or_ge (k + 1) (pj + 1) with h1 | h1
          · unfold LexLT
            rw [hkset k (by omega), hkset (k + 1) (by omega),
              hset k (by omega), hset (k + 1) (by omega)]
            exact hA k hk1 (by omega)
          rcases Nat.eq_or_lt_of_le h1 with h2 | h2
          · have hk : k = pj := by omega
            rcases lt_or_eq_of_le hstop with hlt | heq2
            · refine Or.inl ?_
              rw [← h2, hkself, hkset k (by omega), hk]
              exact hlt
            · refine Or.inr ⟨?_, ?_⟩
              · rw [← h2, hkself, hkset k (by omega), hk]
                exact heq2
              · rw [← h2, hself, hset k (by omega), hk]
                exact hE pj (by omega) (by omega)
          rcases Nat.eq_or_lt_of_le (show pj + 1 ≤ k by omega) with h3 | h3
          · refine Or.inl ?_
            rw [← h3, hkself, hkset (pj + 2) (by omega)]
            exact hD (pj + 2) (by omega) (by omega)
          · unfold LexLT
            rw [hkset k (by omega), hkset (k + 1) (by omega),
              hset k (by omega), hset (k + 1) (by omega)]
            exact hB k (by omega) hk2

/-- Stability of the insertion-sort loop starting from the identity suffix:
when the processed prefix holds (permuted) positions below `i` and the rest
of the segment still holds the identity, the loop keeps the growing prefix
strictly lex-sorted. -/
theorem insLoop_lex_spec (v : List ℚ) (pr : Nat) :
    ∀ fuel t i, 0 < i → pr < t.length → pr + 1 ≤ i + fuel →
      SegLexSorted v t 0 (i - 1) →
      (∀ k, k < i → t.getD k 0 < i) →
      (∀ k, i ≤ k → k ≤ pr → t.getD k 0 = k) →
      SegLexSorted v (insLoop v 0 pr fuel t i) 0 pr := by
  intro fuel
  induction fuel with
  | zero =>
    intro t i h1 h2 h3 hsort hpre hsuf
    exact segLexSorted_mono hsort (by omega)
  | succ fuel ih =>
    intro t i h1 h2 h3 hsort hpre hsuf
    rw [insLoop]
    by_cases hc : i ≤ pr
    · rw [if_pos hc]
      have hvi : t.getD i 0 = i := hsuf i (le_refl i) hc
      obtain ⟨s1, s2, s3, s4⟩ := shiftIns_lex_spec v (t.getD i 0) 0 i i t
        (by omega) (le_refl i) (by omega) hsort
        (by intro k hk1 hk2; omega)
        (by intro hh1 hh2; omega)
        (by intro k hk1 hk2; omega)
        (by intro k hk1 hk2
            rw [hvi]
            exact hpre k (by omega))
      refine ih (shiftIns v (t.getD i 0) 0 t i) (i + 1) (by omega)
        (by rw [s1]; exact h2) (by omega) (by simpa using s4) ?_ ?_
      · intro k hk
        rcases s3 k (by omega) (by omega) with h | ⟨m, hm1, hm2, hm⟩
        · rw [h, hvi]; omega
        · rw [hm]
          rcases Nat.lt_or_ge m i with hmi | hmi
          · have := hpre m hmi; omega
          · have hmei : m = i := by omega
            rw [hmei, hvi]; omega
      · intro k hk1 hk2
        rw [s2 k (by omega)]
        exact hsuf k (by omega) hk2
    · rw [if_neg hc]
      exact segLexSorted_mono hsort (by omega)

/-- Stability of `npArgsort` in the insertion-sort regime: for at most 16
elements the order array is strictly sorted lexicographically by
(key, original position). -/
theorem npArgsort_lex_of_small (v : List ℚ) (hn : v.length ≤ 16) :
    SegLexSorted v (npArgsort v) 0 (v.length - 1) := by
  rcases Nat.eq_zero_or_pos v.length with h0 | hpos
  · intro k hk1 hk2
    omega
  · have hunf : npArgsort v =
        insLoop v 0 (v.length - 1) (List.range v.length).length (List.range v.length) (0 + 1) := by
      obtain ⟨m, hm⟩ : ∃ m, v.length = m + 1 := ⟨v.length - 1, by omega⟩
      rw [npArgsort, hm]
      simp only [aqsortSeg]
      rw [if_neg (by omega)]
    rw [hunf]
    exact insLoop_lex_spec v (v.length - 1) (List.range v.length).length
      (List.range v.length) 1 (by omega)
      (by rw [List.length_range]; omega) (by rw [List.length_range]; omega)
      (by intro k hk1 hk2; omega)
      (by intro k hk
          have : k = 0 := by omega
          rw [this, getD_range _ _ (by omega)]
          omega)
      (by intro k hk1 hk2
          rw [getD_range _ _ (by rw [List.length_range] at *; omega)])

/-! ## Part 4: facts about construction and combination used by the claims -/

theorem normalize_map_scalar (x : Option ℚ) :
    normalizeOrigTime (x.map OrigTimeIn.scalar) = x := by
  cases x <;> rfl

/-- Combine when both sets are present and `b` has no origin time: shift,
concatenate, reconstruct. -/
theorem combine_some_some_unset (aa bb : Annotations) (ls : List Nat) (f : ℚ)
    (hot : bb.origTime = none) :
    combineAnnotations (some aa) (some bb) ls f =
      (match strConcat aa.description bb.description with
       | .error e => .error e
       | .ok descr =>
          (annotationsInit
            (.d1 (aa.onset ++ bb.onset.map (fun x => x + (ls.dropLast.sum : ℚ) / f)))
            (.d1 (aa.duration ++ bb.duration)) descr
            (aa.origTime.map OrigTimeIn.scalar)).map CombineRes.someRes) := by
  simp only [combineAnnotations]
  rw [if_neg (by simp), if_pos hot]

/-- Combine when both sets are present and `b` has an origin time set: the
object-array path. -/
theorem combine_some_some_set (aa bb : Annotations) (ls : List Nat) (f : ℚ)
    (hot : ¬ bb.origTime = none) :
    combineAnnotations (some aa) (some bb) ls f =
      (match strConcat aa.description bb.description with
       | .error e => .error e
       | .ok descr =>
          if aa.onset.length + 1 = (aa.duration ++ bb.duration).length ∧
             (aa.duration ++ bb.duration).length = descr.len then
            if aa.onset.length = 0 then
              .ok (.objRes bb (aa.duration ++ bb.duration) descr aa.origTime)
            else .error .typeError
          else .error (.valueError "Onset, duration and description must be equal in sizes.")) := by
  simp only [combineAnnotations]
  rw [if_neg (by simp), if_neg hot]

theorem combine_first_absent (b : Option Annotations) (ls : List Nat) (f : ℚ) :
    combineAnnotations none b ls f = .ok .noneRes := by
  simp [combineAnnotations]

theorem combine_second_absent (a : Option Annotations) (ls : List Nat) (f : ℚ) :
    combineAnnotations a none ls f = .ok .noneRes := by
  cases a <;> simp [combineAnnotations]

/-- Inversion: a proper merged object only arises from the no-origin-time
branch, through ordinary construction. -/
theorem combine_someRes_inv (a b : Option Annotations) (ls : List Nat) (f : ℚ)
    (res : Annotations)
    (h : combineAnnotations a b ls f = .ok (.someRes res)) :
    ∃ aa bb, a = some aa ∧ b = some bb ∧ bb.origTime = none ∧
      ∃ descr, strConcat aa.description bb.description = .ok descr ∧
        annotationsInit
          (.d1 (aa.onset ++ bb.onset.map (fun x => x + (ls.dropLast.sum : ℚ) / f)))
          (.d1 (aa.duration ++ bb.duration)) descr
          (aa.origTime.map OrigTimeIn.scalar) = .ok res := by
  cases a with
  | none =>
    rw [combine_first_absent] at h
    simp at h
  | some aa =>
    cases b with
    | none =>
      rw [combine_second_absent] at h
      simp at h
    | some bb =>
      by_cases hot : bb.origTime = none
      · rw [combine_some_some_unset aa bb ls f hot] at h
        split at h
        · simp at h
        · rename_i descr heq
          refine ⟨aa, bb, rfl, rfl, hot, descr, heq, ?_⟩
          cases hinit : annotationsInit
              (.d1 (aa.onset ++ bb.onset.map (fun x => x + (ls.dropLast.sum : ℚ) / f)))
              (.d1 (aa.duration ++ bb.duration)) descr
              (aa.origTime.map OrigTimeIn.scalar) with
          | error e =>
            rw [hinit] at h
            simp [Except.map] at h
          | ok ann =>
            rw [hinit] at h
            simp only [Except.map, Except.ok.injEq, CombineRes.someRes.injEq] at h
            rw [h]
      · rw [combine_some_some_set aa bb ls f hot] at h
        split at h
        · simp at h
        · split at h
          · split at h
            · simp at h
            · simp at h
          · simp at h

/-- Inversion for the degenerate object-array result: its lengths satisfy
the chained equality with onset length `1`. -/
theorem combine_objRes_inv (a b : Option Annotations) (ls : List Nat) (f : ℚ)
    (bb : Annotations) (dur : List ℚ) (descr : StrArray) (ot : Option ℚ)
    (h : combineAnnotations a b ls f = .ok (.objRes bb dur descr ot)) :
    1 = dur.length ∧ dur.length = descr.len := by
  cases a with
  | none =>
    rw [combine_first_absent] at h
    simp at h
  | some aa =>
    cases b with
    | none =>
      rw [combine_second_absent] at h
      simp at h
    | some bb2 =>
      by_cases hot : bb2.origTime = none
      · rw [combine_some_some_unset aa bb2 ls f hot] at h
        split at h
        · simp at h
        · rename_i descr2 heq
          cases hinit : annotationsInit
              (.d1 (aa.onset ++ bb2.onset.map (fun x => x + (ls.dropLast.sum : ℚ) / f)))
              (.d1 (aa.duration ++ bb2.duration)) descr2
              (aa.origTime.map OrigTimeIn.scalar) with
          | error e =>
            rw [hinit] at h
            simp [Except.map] at h
          | ok ann =>
            rw [hinit] at h
            simp [Except.map] at h
      · rw [combine_some_some_set aa bb2 ls f hot] at h
        split at h
        · simp at h
        · rename_i descr2 heq
          split at h
          · rename_i hlen
            split at h
            · rename_i hzero
              simp only [Except.ok.injEq, CombineRes.objRes.injEq] at h
              obtain ⟨-, hdur, hdesc, -⟩ := h
              subst hdur
              subst hdesc
              omega
            · simp at h
          · simp at h

/-- Lengths of every successfully constructed object agree. -/
theorem init_lengths (onset duration : NumArray) (desc : StrArray)
    (ot : Option OrigTimeIn) (ann : Annotations)
    (h : annotationsInit onset duration desc ot = .ok ann) :
    ann.onset.length = ann.duration.length ∧ ann.duration.length = ann.description.len := by
  obtain ⟨o, d, -, -, -, -, rfl⟩ := annotationsInit_ok_inv onset duration desc ot ann h
  refine ⟨?_, ?_⟩
  · rw [applyPermQ_length, applyPermQ_length]
  · rw [applyPermQ_length, applyPermS_len]

/-- The onset sequence of every successfully constructed object is
non-decreasing. -/
theorem init_onset_sorted (onset duration : NumArray) (desc : StrArray)
    (ot : Option OrigTimeIn) (ann : Annotations)
    (h : annotationsInit onset duration desc ot = .ok ann) :
    IsNonDecr ann.onset := by
  obtain ⟨o, d, -, -, -, -, rfl⟩ := annotationsInit_ok_inv onset duration desc ot ann h
  intro k hk
  obtain ⟨g1, g2, g3⟩ := npArgsort_spec o
  rw [applyPermQ_length, g1] at hk
  rw [applyPermQ_getD o _ k (by omega), applyPermQ_getD o _ (k + 1) (by omega)]
  exact g2 k (by omega) (by omega)

theorem decodeNums_map (l : List ℚ) :
    jsonDecodeNums (Json.arr (l.map Json.num)) = some l := by
  induction l with
  | nil => rfl
  | cons x xs ih =>
    simp only [jsonDecodeNums, List.map_cons, List.mapM_cons] at ih ⊢
    rw [ih]
    rfl

theorem decodeStrs_map (l : List String) :
    jsonDecodeStrs (Json.arr (l.map Json.str)) = some l := by
  induction l with
  | nil => rfl
  | cons x xs ih =>
    simp only [jsonDecodeStrs, List.map_cons, List.mapM_cons] at ih ⊢
    rw [ih]
    rfl

/-! Example annotation sets used in concrete evaluations. -/

/-- An example set: one entry at second 1. -/
def annA : Annotations := ⟨[1], [1/2], .d1 ["x"], none⟩

/-- A second example set, no origin time. -/
def annB : Annotations := ⟨[1/5], [1/10], .d1 ["y"], none⟩

/-- A set with its origin time set (exercises the absolute-timestamp
branch of combine). -/
def annBT : Annotations := ⟨[3/10], [1/5], .d1 ["y"], some 5⟩

/-- Another set with origin time set, used for the error-kind analysis. -/
def annBT5 : Annotations := ⟨[2/5], [3/10], .d1 ["z"], some 7⟩

/-- Input of the stability counterexample: 17 equal onsets. -/
def c3onset : List ℚ := List.replicate 17 0

/-- Distinct labels for the 17 equal-onset entries, in original order. -/
def c3desc : List String :=
  ["a0", "a1", "a2", "a3", "a4", "a5", "a6", "a7", "a8", "a9", "a10", "a11",
   "a12", "a13", "a14", "a15", "a16"]

/-- The labels as the quicksort argsort actually leaves them. -/
def c3descPermuted : List String :=
  ["a0", "a14", "a13", "a12", "a11", "a10", "a9", "a15", "a8", "a6", "a5",
   "a4", "a3", "a2", "a1", "a7", "a16"]

/-! ## Part 5: the claims

Concrete evaluations below need the elaborator to compute with rational
arithmetic, whose Batteries definitions are `@[irreducible]`; they are made
semireducible locally for this section only. -/

section ClaimEvaluations

attribute [local semireducible] Rat.add Rat.mul Rat.inv Rat.sub

/-- C1: the claim says `combine(A, absent, …)` returns a set equal to A,
`combine(absent, B, …)` returns B, and `combine(absent, absent, …)` is
absent.  On the code, `if not all(annotations): return None` fires whenever
either argument is absent (an `Annotations` instance is always truthy and
`None` falsy), making the two `elif annotations[i] is None` identity
branches unreachable: both one-absent cases return absent, and in
particular `combine(A, absent)` is not `A`.  Only the absent/absent case
behaves as claimed. -/
theorem c1_combine_identity_code_bug :
    (∀ (a : Annotations) (ls : List Nat) (f : ℚ),
      combineAnnotations (some a) none ls f = .ok CombineRes.noneRes) ∧
    (∀ (b : Annotations) (ls : List Nat) (f : ℚ),
      combineAnnotations none (some b) ls f = .ok CombineRes.noneRes) ∧
    (∀ (ls : List Nat) (f : ℚ),
      combineAnnotations none none ls f = .ok CombineRes.noneRes) ∧
    combineAnnotations (some annA) none [1000, 500] 500 ≠
      .ok (CombineRes.someRes annA) := by
  refine ⟨fun a ls f => combine_second_absent (some a) ls f,
    fun b ls f => combine_first_absent (some b) ls f,
    fun ls f => combine_first_absent none ls f, ?_⟩
  rw [combine_second_absent]
  simp

/-- C2: the claim says that when `b.origin_time` is set, b's onset values
appear in the merged result unshifted.  The code instead binds
`onset = annotations[1]` — the whole `Annotations` object, not its
`.onset` — so `np.r_` appends the object itself, and for any pair of
one-entry sets construction raises `TypeError` while comparing a float
with the object during `argsort`: no merged result exists at all,
regardless of `priorSampleCounts` and `samplingFrequency`. -/
theorem c2_absolute_timestamp_code_bug :
    ∀ (ls : List Nat) (f : ℚ),
      combineAnnotations (some annA) (some annBT) ls f = .error PyErr.typeError := by
  intro ls f
  rw [combine_some_some_set annA annBT ls f (by decide)]
  decide

/-- C3 (counterexample): construction with 17 equal onsets and distinct
labels.  numpy's default quicksort argsort performs one partition pass
whose swaps scramble equal keys: the entries originally at positions 1 and
2 ("a1", "a2") come out at positions 14 and 13 — in reversed relative
order — refuting the claim that any two entries with equal onset retain
their original relative order. -/
theorem c3_stability_counterexample :
    annotationsInit (.d1 c3onset) (.d1 c3onset) (.d1 c3desc) none =
      Except.ok ⟨c3onset, c3onset, .d1 c3descPermuted, none⟩ ∧
    c3desc.getD 1 "" = "a1" ∧ c3desc.getD 2 "" = "a2" ∧
    c3descPermuted.getD 13 "" = "a2" ∧ c3descPermuted.getD 14 "" = "a1" ∧
    c3descPermuted ≠ c3desc := by
  exact ⟨by decide, rfl, rfl, rfl, rfl, by decide⟩

/-- C3 (amended): construction applies the single permutation
`npArgsort onset` to the three parallel sequences in lockstep; the
permutation is stable only in numpy's insertion-sort regime, i.e. for
inputs with at most 16 entries, where any two entries with equal onset
retain their original relative order (the order array is strictly
lexicographically sorted by (onset value, original position)). -/
theorem c3_stability_amended :
    ∀ (o d : List ℚ) (desc : List String) (ot : Option OrigTimeIn) (ann : Annotations),
      annotationsInit (.d1 o) (.d1 d) (.d1 desc) ot = .ok ann →
      ann.onset = applyPermQ o (npArgsort o) ∧
      ann.duration = applyPermQ d (npArgsort o) ∧
      ann.description = .d1 ((npArgsort o).map (fun k => desc.getD k "")) ∧
      (o.length ≤ 16 →
        ∀ p q, p < q → q < o.length →
          o.getD ((npArgsort o).getD p 0) 0 = o.getD ((npArgsort o).getD q 0) 0 →
          (npArgsort o).getD p 0 < (npArgsort o).getD q 0) := by
  intro o d desc ot ann h
  obtain ⟨o2, d2, ho, hd, h1, h2, rfl⟩ := annotationsInit_ok_inv _ _ _ _ _ h
  injection ho with ho2
  injection hd with hd2
  subst ho2
  subst hd2
  refine ⟨rfl, rfl, rfl, ?_⟩
  intro hn p q hpq hq heq
  have hlex := segLexSorted_lt (npArgsort_lex_of_small o hn) q p (by omega) hpq (by omega)
  rcases hlex with hlt | ⟨-, hent⟩
  · simp only [keyAt, idxVal] at hlt
    rw [heq] at hlt
    exact absurd hlt (lt_irrefl _)
  · exact hent

/-- Witness for C3 (amended) at a concrete three-entry input with a tie. -/
theorem c3_stability_amended_witness :
    (npArgsort [(1 : ℚ), 0, 0]).getD 0 0 < (npArgsort [(1 : ℚ), 0, 0]).getD 1 0 :=
  (c3_stability_amended [1, 0, 0] [5, 6, 7] ["a", "b", "c"] none
      ⟨[0, 0, 1], [6, 7, 5], .d1 ["b", "c", "a"], none⟩ (by decide)).2.2.2
    (by decide) 0 1 (by decide) (by decide) (by decide)

/-- C4: when both sets are present and `b.origin_time` is unset, the merge
shifts b's onsets by `sum(priorSampleCounts[0 : last]) / samplingFrequency`,
concatenates a's fields with b's, rebuilds via ordinary construction with
`a`'s origin time (so the result's origin time is a's); on the concrete
example the shift is `1000 / 500 = 2` seconds and the merged set is
onsets `[1, 11/5]` (= [1.0, 2.2]) with descriptions `["x", "y"]`. -/
theorem c4_offset_merge :
    (∀ (a b : Annotations) (ls : List Nat) (f : ℚ), b.origTime = none →
      combineAnnotations (some a) (some b) ls f =
        (match strConcat a.description b.description with
         | .error e => .error e
         | .ok descr =>
            (annotationsInit
              (.d1 (a.onset ++ b.onset.map (fun x => x + (ls.dropLast.sum : ℚ) / f)))
              (.d1 (a.duration ++ b.duration)) descr
              (a.origTime.map OrigTimeIn.scalar)).map CombineRes.someRes)) ∧
    (∀ (a b : Option Annotations) (ls : List Nat) (f : ℚ) (res : Annotations),
      combineAnnotations a b ls f = .ok (.someRes res) →
      ∀ aa, a = some aa → res.origTime = aa.origTime) ∧
    combineAnnotations (some annA) (some annB) [1000, 500] 500 =
      .ok (.someRes ⟨[1, 11/5], [1/2, 1/10], .d1 ["x", "y"], none⟩) := by
  refine ⟨combine_some_some_unset, ?_, by decide⟩
  intro a b ls f res h aa ha
  subst ha
  obtain ⟨aa2, bb, ha2, -, -, descr, -, hinit⟩ := combine_someRes_inv _ _ _ _ _ h
  injection ha2 with ha3
  subst ha3
  obtain ⟨o, d, -, -, -, -, rfl⟩ := annotationsInit_ok_inv _ _ _ _ _ hinit
  exact normalize_map_scalar aa.origTime

/-- Witness for C4: the merged set of the concrete example carries a's
origin time. -/
theorem c4_offset_merge_witness :
    (⟨[1, 11/5], [1/2, 1/10], .d1 ["x", "y"], none⟩ : Annotations).origTime =
      annA.origTime :=
  c4_offset_merge.2.1 (some annA) (some annB) [1000, 500] 500
    ⟨[1, 11/5], [1/2, 1/10], .d1 ["x", "y"], none⟩ c4_offset_merge.2.2 annA rfl

/-- C5: construction fails exactly when onset is not one-dimensional, or
duration is not one-dimensional, or the three lengths are not all equal
(and on failure no object is produced — the result is an `Except.error`,
never a partial object).  The claim's final part — combine propagates
construction errors unchanged and introduces no new error kinds — is
false on the code: in the absolute-timestamp branch the slip
`onset = annotations[1]` makes `argsort` compare a float with an
`Annotations` object, raising a `TypeError`, an error kind construction
itself never raises. -/
theorem c5_validation_exactness_and_combine_error :
    (∀ (onset duration : NumArray) (desc : StrArray) (ot : Option OrigTimeIn),
      (∃ e, annotationsInit onset duration desc ot = .error e) ↔
      (onset.ndim ≠ 1 ∨ duration.ndim ≠ 1 ∨
        ∀ o d, onset = .d1 o → duration = .d1 d →
          ¬(o.length = d.length ∧ d.length = desc.len))) ∧
    (∀ (ls : List Nat) (f : ℚ),
      combineAnnotations (some annA) (some annBT5) ls f = .error PyErr.typeError) := by
  constructor
  · intro onset duration desc ot
    constructor
    · rintro ⟨e, he⟩
      cases onset with
      | d0 q => exact Or.inl (by simp [NumArray.ndim])
      | d2 qss => exact Or.inl (by simp [NumArray.ndim])
      | d1 o =>
        cases duration with
        | d0 q => exact Or.inr (Or.inl (by simp [NumArray.ndim]))
        | d2 qss => exact Or.inr (Or.inl (by simp [NumArray.ndim]))
        | d1 d =>
          refine Or.inr (Or.inr ?_)
          intro o2 d2 ho hd hlen
          injection ho with ho2
          injection hd with hd2
          subst ho2
          subst hd2
          rw [annotationsInit_ok o d desc ot hlen.1 hlen.2] at he
          exact absurd he (by simp)
    · intro hcond
      cases onset with
      | d0 q => exact ⟨_, rfl⟩
      | d2 qss => exact ⟨_, rfl⟩
      | d1 o =>
        cases duration with
        | d0 q => exact ⟨_, rfl⟩
        | d2 qss => exact ⟨_, rfl⟩
        | d1 d =>
          rcases hcond with h | h | h
          · exact (h rfl).elim
          · exact (h rfl).elim
          · refine ⟨.valueError "Onset, duration and description must be equal in sizes.", ?_⟩
            simp only [annotationsInit]
            rw [if_neg (h o d rfl rfl)]
  · intro ls f
    rw [combine_some_some_set annA annBT5 ls f (by decide)]
    decide

/-- C6: every successfully constructed object has
`len(onset) = len(duration) = len(description)`, and so does every
annotation set a successful combine returns — both the ordinary merged
object and the degenerate object-array result (whose onset is the
one-element object array). -/
theorem c6_length_invariant :
    (∀ (onset duration : NumArray) (desc : StrArray) (ot : Option OrigTimeIn)
        (ann : Annotations),
      annotationsInit onset duration desc ot = .ok ann →
      ann.onset.length = ann.duration.length ∧
        ann.duration.length = ann.description.len) ∧
    (∀ (a b : Option Annotations) (ls : List Nat) (f : ℚ) (res : Annotations),
      combineAnnotations a b ls f = .ok (.someRes res) →
      res.onset.length = res.duration.length ∧
        res.duration.length = res.description.len) ∧
    (∀ (a b : Option Annotations) (ls : List Nat) (f : ℚ) (bb : Annotations)
        (dur : List ℚ) (descr : StrArray) (ot : Option ℚ),
      combineAnnotations a b ls f = .ok (.objRes bb dur descr ot) →
      1 = dur.length ∧ dur.length = descr.len) := by
  refine ⟨init_lengths, ?_, combine_objRes_inv⟩
  intro a b ls f res h
  obtain ⟨aa, bb, -, -, -, descr, -, hinit⟩ := combine_someRes_inv _ _ _ _ _ h
  exact init_lengths _ _ _ _ _ hinit

/-- Witness for C6 at a concrete two-entry construction. -/
theorem c6_length_invariant_witness :
    (⟨[1, 2], [4, 3], .d1 ["b", "a"], none⟩ : Annotations).onset.length =
        (⟨[1, 2], [4, 3], .d1 ["b", "a"], none⟩ : Annotations).duration.length ∧
      (⟨[1, 2], [4, 3], .d1 ["b", "a"], none⟩ : Annotations).duration.length =
        (⟨[1, 2], [4, 3], .d1 ["b", "a"], none⟩ : Annotations).description.len :=
  c6_length_invariant.1 (.d1 [2, 1]) (.d1 [3, 4]) (.d1 ["a", "b"]) none
    ⟨[1, 2], [4, 3], .d1 ["b", "a"], none⟩ (by decide)

/-- C7: the onset sequence of every successfully constructed object is
non-decreasing, and so is the onset sequence of every merged object a
successful combine returns. -/
theorem c7_sorted_invariant :
    (∀ (onset duration : NumArray) (desc : StrArray) (ot : Option OrigTimeIn)
        (ann : Annotations),
      annotationsInit onset duration desc ot = .ok ann → IsNonDecr ann.onset) ∧
    (∀ (a b : Option Annotations) (ls : List Nat) (f : ℚ) (res : Annotations),
      combineAnnotations a b ls f = .ok (.someRes res) → IsNonDecr res.onset) := by
  refine ⟨init_onset_sorted, ?_⟩
  intro a b ls f res h
  obtain ⟨aa, bb, -, -, -, descr, -, hinit⟩ := combine_someRes_inv _ _ _ _ _ h
  exact init_onset_sorted _ _ _ _ _ hinit

/-- Witness for C7 at a concrete two-entry construction. -/
theorem c7_sorted_invariant_witness :
    IsNonDecr (⟨[1, 2], [4, 3], .d1 ["b", "a"], none⟩ : Annotations).onset :=
  c7_sorted_invariant.1 (.d1 [2, 1]) (.d1 [3, 4]) (.d1 ["a", "b"]) none
    ⟨[1, 2], [4, 3], .d1 ["b", "a"], none⟩ (by decide)

/-- C8: origin-time normalization at construction: a (seconds, microseconds)
pair is stored as `seconds + microseconds / 1000000`, a numeric scalar is
stored as its floating-point value, and an absent origin time stays the
`None` sentinel. -/
theorem c8_orig_time_normalization :
    ∀ (o d : List ℚ) (desc : StrArray) (s us q : ℚ),
      o.length = d.length → d.length = desc.len →
      (∃ ann, annotationsInit (.d1 o) (.d1 d) desc (some (.pair s us)) = .ok ann ∧
        ann.origTime = some (s + us / 1000000)) ∧
      (∃ ann, annotationsInit (.d1 o) (.d1 d) desc (some (.scalar q)) = .ok ann ∧
        ann.origTime = some q) ∧
      (∃ ann, annotationsInit (.d1 o) (.d1 d) desc none = .ok ann ∧
        ann.origTime = none) := by
  intro o d desc s us q h1 h2
  exact ⟨⟨_, annotationsInit_ok o d desc _ h1 h2, rfl⟩,
    ⟨_, annotationsInit_ok o d desc _ h1 h2, rfl⟩,
    ⟨_, annotationsInit_ok o d desc _ h1 h2, rfl⟩⟩

/-- Witness for C8 at a concrete input: the pair (2 s, 500000 µs) is stored
as 5/2, the scalar 7 as 7, and absent stays absent. -/
theorem c8_orig_time_normalization_witness :
    (∃ ann, annotationsInit (.d1 [1]) (.d1 [2]) (.d1 ["a"]) (some (.pair 2 500000)) =
        .ok ann ∧ ann.origTime = some ((2 : ℚ) + 500000 / 1000000)) ∧
      (∃ ann, annotationsInit (.d1 [1]) (.d1 [2]) (.d1 ["a"]) (some (.scalar 7)) =
        .ok ann ∧ ann.origTime = some 7) ∧
      (∃ ann, annotationsInit (.d1 [1]) (.d1 [2]) (.d1 ["a"]) none =
        .ok ann ∧ ann.origTime = none) :=
  c8_orig_time_normalization [1] [2] (.d1 ["a"]) 2 500000 7 (by decide) (by decide)

/-- C9: reading the serialized document back recovers the stored fields:
the values under keys `onset` and `duration` decode to the stored numeric
lists, the value under `description` is exactly the stored labels
(`tolist`-encoded, and decoding recovers the list in the one-dimensional
case), and `orig_time` holds a number or null. -/
theorem c9_serialize_round_trip :
    ∀ a : Annotations,
      (jsonLookup (serializeAnn a) "onset").bind jsonDecodeNums = some a.onset ∧
      (jsonLookup (serializeAnn a) "duration").bind jsonDecodeNums = some a.duration ∧
      jsonLookup (serializeAnn a) "description" = some a.description.tolistJson ∧
      (∀ xs, a.description = .d1 xs →
        (jsonLookup (serializeAnn a) "description").bind jsonDecodeStrs = some xs) ∧
      jsonLookup (serializeAnn a) "orig_time" =
        some (match a.origTime with | none => Json.null | some q => Json.num q) := by
  intro a
  obtain ⟨ao, ad, adesc, aot⟩ := a
  refine ⟨?_, ?_, rfl, ?_, rfl⟩
  · exact decodeNums_map ao
  · exact decodeNums_map ad
  · intro xs hxs
    subst hxs
    exact decodeStrs_map xs

/-- Witness for C9 at a concrete annotation set. -/
theorem c9_serialize_round_trip_witness :
    (jsonLookup (serializeAnn annBT) "onset").bind jsonDecodeNums = some annBT.onset ∧
      (jsonLookup (serializeAnn annBT) "description").bind jsonDecodeStrs = some ["y"] :=
  ⟨(c9_serialize_round_trip annBT).1, (c9_serialize_round_trip annBT).2.2.2.1 ["y"] rfl⟩

/-- C10: the dimensionality of `description` is never checked: a
two-dimensional description whose outer length matches the (equal) lengths
of one-dimensional onset and duration is accepted, while two-dimensional
onset or duration arrays are rejected. -/
theorem c10_description_ndim_unchecked :
    (∀ (o d : List ℚ) (dss : List (List String)) (ot : Option OrigTimeIn),
      o.length = d.length → d.length = dss.length →
      ∃ ann, annotationsInit (.d1 o) (.d1 d) (.d2 dss) ot = .ok ann ∧
        ann.description = .d2 ((npArgsort o).map (fun k => dss.getD k []))) ∧
    (∀ (qss : List (List ℚ)) (duration : NumArray) (desc : StrArray)
        (ot : Option OrigTimeIn),
      annotationsInit (.d2 qss) duration desc ot =
        .error (.valueError "Onset must be a one dimensional array.")) ∧
    (∀ (o : List ℚ) (qss : List (List ℚ)) (desc : StrArray) (ot : Option OrigTimeIn),
      annotationsInit (.d1 o) (.d2 qss) desc ot =
        .error (.valueError "Duration must be a one dimensional array.")) := by
  refine ⟨?_, fun qss duration desc ot => rfl, fun o qss desc ot => rfl⟩
  intro o d dss ot h1 h2
  exact ⟨_, annotationsInit_ok o d (.d2 dss) ot h1 h2, rfl⟩

/-- Witness for C10: a 2×2 description with two entries is accepted. -/
theorem c10_description_ndim_unchecked_witness :
    ∃ ann, annotationsInit (.d1 [2, 1]) (.d1 [5, 6]) (.d2 [["a", "b"], ["c", "d"]]) none =
        .ok ann ∧
      ann.description = .d2 ((npArgsort [2, 1]).map
        (fun k => [["a", "b"], ["c", "d"]].getD k [])) :=
  c10_description_ndim_unchecked.1 [2, 1] [5, 6] [["a", "b"], ["c", "d"]] none
    (by decide) (by decide)

end ClaimEvaluations

end MneAnn
